import Mathlib

/-!
Verification of the in-memory limit order book (order_book.h / order_book.cpp).

Shallow embedding notes:
* `double price` is modelled as `Int`.  The source never performs arithmetic on
  prices; it only copies them and compares them with `==`, `!=`, `<` and `>`
  (via the `std::map` comparators `std::greater<double>` / `std::less<double>`),
  so any linearly ordered type with decidable equality captures the behaviour
  on the finite doubles the program manipulates.
* `uint64_t quantity` arithmetic wraps modulo 2^64; the helpers `uadd` / `usub`
  reproduce that wrap explicitly on `Nat`.
* `std::map<double, PriceLevelData, cmp>` is modelled as an association list
  sorted by the comparator (`bids_` descending, `asks_` ascending), which is
  exactly the iteration order the source relies on.
* `std::list<OrderNode>::iterator` (a stable handle to one queue node) is
  modelled by tagging every node with a unique `nodeId`, handed out by the
  `nextNode` counter of the book; `OrderLocation.list_iter` becomes the stored
  `nodeId`.  Dereferencing an iterator becomes looking the node up by id inside
  the level the location points at; the `none` branches of those lookups
  correspond to situations that are undefined behaviour (a dangling iterator)
  or the source's "should not happen" early returns, and are unreachable from
  coherent book states.
* `std::unordered_map<uint64_t, OrderLocation>` is modelled as an association
  list with unique keys; `order_lookup_[id] = loc` (`lkSet`) replaces the
  binding when the key is present and appends it otherwise, exactly like
  `operator[]` followed by assignment.
* `get_snapshot` is a `const` member function, so it is embedded as a pure
  function from the book to the two summary lists: it cannot mutate the state
  by construction.
-/

set_option maxHeartbeats 1000000

namespace LOB

/-- Modulus of the C++ `uint64_t` type. -/
def U64 : Nat := 2 ^ 64

/-- `uint64_t` addition (wraps modulo 2^64). -/
def uadd (a b : Nat) : Nat := (a + b) % U64

/-- `uint64_t` subtraction (wraps modulo 2^64). -/
def usub (a b : Nat) : Nat := (a + (U64 - b % U64)) % U64

/-- Order structure with all required fields (order_book.h). -/
structure Order where
  order_id : Nat
  is_buy : Bool
  price : Int
  quantity : Nat
  timestamp_ns : Nat
deriving DecidableEq

/-- PriceLevel: the aggregated snapshot summary (order_book.h). -/
structure PriceLevel where
  price : Int
  total_quantity : Nat
deriving DecidableEq

/-- OrderNode: one queue node.  The C++ node stores a self-referencing list
iterator; here the stable identity of the node is the `nodeId` tag. -/
structure OrderNode where
  nodeId : Nat
  order : Order
deriving DecidableEq

/-- Internal per-price structure: FIFO queue of orders plus aggregate. -/
structure PriceLevelData where
  price : Int
  orders : List OrderNode
  total_quantity : Nat
deriving DecidableEq

/-- A side index: `std::map<double, PriceLevelData, cmp>` as a comparator-sorted
association list. -/
abbrev SMap := List (Int × PriceLevelData)

/-- Location descriptor stored in the order lookup (order_book.h):
side, price, and the stable reference (`list_iter`, here the node id). -/
structure OrderLocation where
  is_buy : Bool
  price : Int
  nodeId : Nat
deriving DecidableEq

/-- The order lookup: `std::unordered_map<uint64_t, OrderLocation>` as an
association list with unique keys. -/
abbrev LMap := List (Nat × OrderLocation)

/-- The order book state: the two side indices, the order lookup, and the
allocator counter that hands out fresh node identities (fresh list nodes). -/
structure OrderBook where
  bids_ : SMap
  asks_ : SMap
  order_lookup_ : LMap
  nextNode : Nat
deriving DecidableEq

/-- The freshly constructed (default) book. -/
def emptyBook : OrderBook := { bids_ := [], asks_ := [], order_lookup_ := [], nextNode := 0 }

/-- Comparator of the bid side (`std::greater<double>`): highest price first. -/
def bidLt (a b : Int) : Bool := decide (b < a)

/-- Comparator of the ask side (`std::less<double>`): lowest price first. -/
def askLt (a b : Int) : Bool := decide (a < b)

/-- Key lookup in a side index (`map::find`). -/
def levFind : SMap → Int → Option PriceLevelData
  | [], _ => none
  | (k, v) :: t, p => if p = k then some v else levFind t p

/-- Ordered insert-or-assign into a side index, keeping the comparator order
(the effect of `map::operator[]` creating the entry, plus the subsequent
in-place mutation of the mapped value). -/
def levInsert (lt : Int → Int → Bool) : SMap → Int → PriceLevelData → SMap
  | [], p, v => [(p, v)]
  | (k, w) :: t, p, v =>
    if p = k then (p, v) :: t
    else if lt p k then (p, v) :: (k, w) :: t
    else (k, w) :: levInsert lt t p v

/-- In-place update of the value stored at an existing key (mutation of
`price_it->second`); leaves the map unchanged if the key is absent. -/
def levSet : SMap → Int → PriceLevelData → SMap
  | [], _, _ => []
  | (k, w) :: t, p, v => if p = k then (p, v) :: t else (k, w) :: levSet t p v

/-- Removal of a key from a side index (`map::erase`). -/
def levErase : SMap → Int → SMap
  | [], _ => []
  | (k, w) :: t, p => if p = k then t else (k, w) :: levErase t p

/-- Dereference a stored list iterator inside one level queue: find the node
carrying the given stable id. -/
def findNode : List OrderNode → Nat → Option OrderNode
  | [], _ => none
  | n :: t, nid => if n.nodeId = nid then some n else findNode t nid

/-- `list::erase` at a stored iterator: remove the node carrying the id. -/
def eraseNode : List OrderNode → Nat → List OrderNode
  | [], _ => []
  | n :: t, nid => if n.nodeId = nid then t else n :: eraseNode t nid

/-- In-place mutation of the quantity of the node the iterator points at
(`order.quantity = new_quantity`). -/
def setNodeQty : List OrderNode → Nat → Nat → List OrderNode
  | [], _, _ => []
  | n :: t, nid, q =>
    if n.nodeId = nid then { n with order := { n.order with quantity := q } } :: t
    else n :: setNodeQty t nid q

/-- Key lookup in the order lookup (`unordered_map::find`). -/
def lkFind : LMap → Nat → Option OrderLocation
  | [], _ => none
  | (k, v) :: t, oid => if oid = k then some v else lkFind t oid

/-- `order_lookup_[id] = location`: replace the binding if the key exists,
append it otherwise. -/
def lkSet : LMap → Nat → OrderLocation → LMap
  | [], oid, v => [(oid, v)]
  | (k, w) :: t, oid, v => if oid = k then (oid, v) :: t else (k, w) :: lkSet t oid v

/-- `unordered_map::erase` of a key. -/
def lkErase : LMap → Nat → LMap
  | [], _ => []
  | (k, w) :: t, oid => if oid = k then t else (k, w) :: lkErase t oid

/-- The side index selected by a side flag (`true` = bids). -/
def sideLevels (b : OrderBook) (side : Bool) : SMap := if side then b.bids_ else b.asks_

/-- The comparator of the side selected by a side flag. -/
def sideCmp (side : Bool) : Int → Int → Bool := if side then bidLt else askLt

/-- Per-side body of `OrderBook::add_order`: get-or-create the price level
(`bids_[order.price]` / `asks_[order.price]`), stamp its `price` field, append
the new node to the FIFO queue, and bump `total_quantity`. -/
def addSide (lt : Int → Int → Bool) (m : SMap) (o : Order) (nid : Nat) : SMap :=
  let level := (levFind m o.price).getD { price := 0, orders := [], total_quantity := 0 }
  levInsert lt m o.price
    { level with
      price := o.price,
      orders := level.orders ++ [{ nodeId := nid, order := o }],
      total_quantity := uadd level.total_quantity o.quantity }

/-- `OrderBook::add_order` (order_book.cpp, lines 29-61). -/
def OrderBook.add_order (b : OrderBook) (o : Order) : OrderBook :=
  let nid := b.nextNode
  let b' :=
    if o.is_buy then { b with bids_ := addSide bidLt b.bids_ o nid }
    else { b with asks_ := addSide askLt b.asks_ o nid }
  { b' with
    order_lookup_ := lkSet b'.order_lookup_ o.order_id
      { is_buy := o.is_buy, price := o.price, nodeId := nid },
    nextNode := nid + 1 }

/-- Per-side body of `OrderBook::cancel_order`: find the level at the stored
price, subtract the order's quantity from the aggregate, erase the node, and
drop the level if its queue became empty.  `none` models the source's
"should not happen" early `return false` (level missing) or an invalid stored
iterator (undefined behaviour in C++); both are unreachable from coherent
states. -/
def cancelSide (m : SMap) (loc : OrderLocation) : Option SMap :=
  match levFind m loc.price with
  | none => none
  | some lvl =>
    match findNode lvl.orders loc.nodeId with
    | none => none
    | some node =>
      let newOrders := eraseNode lvl.orders loc.nodeId
      some (if newOrders.isEmpty then levErase m loc.price
            else levSet m loc.price
              { lvl with
                total_quantity := usub lvl.total_quantity node.order.quantity,
                orders := newOrders })

/-- `OrderBook::cancel_order` (order_book.cpp, lines 63-119). -/
def OrderBook.cancel_order (b : OrderBook) (oid : Nat) : Bool × OrderBook :=
  match lkFind b.order_lookup_ oid with
  | none => (false, b)
  | some loc =>
    if loc.is_buy then
      match cancelSide b.bids_ loc with
      | none => (false, b)
      | some m =>
        (true, { b with bids_ := m, order_lookup_ := lkErase b.order_lookup_ oid })
    else
      match cancelSide b.asks_ loc with
      | none => (false, b)
      | some m =>
        (true, { b with asks_ := m, order_lookup_ := lkErase b.order_lookup_ oid })

/-- Dereference the location stored in the lookup (`location.list_iter->order`):
find the node inside the level the location points at.  `none` corresponds to a
dangling iterator (undefined behaviour in C++), unreachable from coherent
states. -/
def derefLoc (b : OrderBook) (loc : OrderLocation) : Option OrderNode :=
  match levFind (sideLevels b loc.is_buy) loc.price with
  | none => none
  | some lvl => findNode lvl.orders loc.nodeId

/-- Per-side body of the quantity-only branch of `OrderBook::amend_order`:
re-find the level at the stored price (`none` models the "should not happen"
early `return false`), set the aggregate to
`total_quantity - order.quantity + new_quantity`, and update the node's
quantity in place. -/
def amendSide (m : SMap) (loc : OrderLocation) (node : OrderNode) (new_quantity : Nat) :
    Option SMap :=
  match levFind m loc.price with
  | none => none
  | some lvl =>
    some (levSet m loc.price
      { lvl with
        total_quantity := uadd (usub lvl.total_quantity node.order.quantity) new_quantity,
        orders := setNodeQty lvl.orders loc.nodeId new_quantity })

/-- `OrderBook::amend_order` (order_book.cpp, lines 121-175). -/
def OrderBook.amend_order (b : OrderBook) (oid : Nat) (new_price : Int) (new_quantity : Nat) :
    Bool × OrderBook :=
  match lkFind b.order_lookup_ oid with
  | none => (false, b)
  | some loc =>
    match derefLoc b loc with
    | none => (false, b)
    | some node =>
      if node.order.price ≠ new_price then
        let new_order := { node.order with price := new_price, quantity := new_quantity }
        let b1 := (b.cancel_order oid).2
        (true, b1.add_order new_order)
      else
        if loc.is_buy then
          match amendSide b.bids_ loc node new_quantity with
          | none => (false, b)
          | some m => (true, { b with bids_ := m })
        else
          match amendSide b.asks_ loc node new_quantity with
          | none => (false, b)
          | some m => (true, { b with asks_ := m })

/-- The snapshot collection loop: walk the side index in iteration order and
emit `{price, total_quantity}` summaries until `depth` entries were taken or
the index is exhausted. -/
def snapTake : Nat → SMap → List PriceLevel
  | _, [] => []
  | 0, _ :: _ => []
  | Nat.succ d, (p, lvl) :: t =>
    { price := p, total_quantity := lvl.total_quantity } :: snapTake d t

/-- `OrderBook::get_snapshot` (order_book.cpp, lines 177-206).  The C++ method
is `const`; the embedding returns the two summary vectors and cannot touch the
book. -/
def OrderBook.get_snapshot (b : OrderBook) (depth : Nat) : List PriceLevel × List PriceLevel :=
  (snapTake depth b.bids_, snapTake depth b.asks_)

/-- Sum of the `quantity` fields of a queue of nodes. -/
def sumQ (l : List OrderNode) : Nat := (l.map (fun n => n.order.quantity)).sum

/-- Sum of the `quantity` fields of the live orders of a level. -/
def levelSum (lvl : PriceLevelData) : Nat := sumQ lvl.orders

/-- States reachable from the empty book by any sequence of the public
operations.  The quantity bounds state representability in `uint64_t`; the
`snap` constructor records that `get_snapshot` is a `const` call, which cannot
change the state. -/
inductive Reach : OrderBook → Prop where
  | empty : Reach emptyBook
  | add (s : OrderBook) (o : Order) : Reach s → o.quantity < U64 → Reach (s.add_order o)
  | cancel (s : OrderBook) (oid : Nat) : Reach s → Reach ((s.cancel_order oid).2)
  | amend (s : OrderBook) (oid : Nat) (np : Int) (nq : Nat) :
      Reach s → nq < U64 → Reach ((s.amend_order oid np nq).2)
  | snap (s : OrderBook) (d : Nat) : Reach s → Reach s

/-- States reachable when every `add_order` respects the documented caller
precondition that the `order_id` is fresh (not currently live). -/
inductive ReachFresh : OrderBook → Prop where
  | empty : ReachFresh emptyBook
  | add (s : OrderBook) (o : Order) :
      ReachFresh s → o.quantity < U64 → lkFind s.order_lookup_ o.order_id = none →
      ReachFresh (s.add_order o)
  | cancel (s : OrderBook) (oid : Nat) : ReachFresh s → ReachFresh ((s.cancel_order oid).2)
  | amend (s : OrderBook) (oid : Nat) (np : Int) (nq : Nat) :
      ReachFresh s → nq < U64 → ReachFresh ((s.amend_order oid np nq).2)
  | snap (s : OrderBook) (d : Nat) : ReachFresh s → ReachFresh s

/-- States reachable when every quantity passed to `add_order` or
`amend_order` is positive (no zero-quantity orders). -/
inductive ReachPos : OrderBook → Prop where
  | empty : ReachPos emptyBook
  | add (s : OrderBook) (o : Order) :
      ReachPos s → 0 < o.quantity → o.quantity < U64 → ReachPos (s.add_order o)
  | cancel (s : OrderBook) (oid : Nat) : ReachPos s → ReachPos ((s.cancel_order oid).2)
  | amend (s : OrderBook) (oid : Nat) (np : Int) (nq : Nat) :
      ReachPos s → 0 < nq → nq < U64 → ReachPos ((s.amend_order oid np nq).2)
  | snap (s : OrderBook) (d : Nat) : ReachPos s → ReachPos s

/-- Well-formedness of one price level of side `side`, relative to the
allocator bound `bound` and its key `key` in the side index. -/
def levelWF (side : Bool) (bound : Nat) (key : Int) (lvl : PriceLevelData) : Prop :=
  lvl.price = key ∧ lvl.orders ≠ [] ∧
  lvl.total_quantity = levelSum lvl % U64 ∧
  (lvl.orders.map OrderNode.nodeId).Nodup ∧
  ∀ n ∈ lvl.orders, n.order.is_buy = side ∧ n.order.price = key ∧
    n.order.quantity < U64 ∧ n.nodeId < bound

/-- The lookup entry `(oid, loc)` resolves: the side index of `loc.is_buy` has
a level at key `loc.price` whose queue holds a node carrying `loc.nodeId`,
and that node's order has id `oid`. -/
def entryResolves (s : OrderBook) (oid : Nat) (loc : OrderLocation) : Prop :=
  ∃ e ∈ sideLevels s loc.is_buy, e.1 = loc.price ∧
    ∃ n ∈ e.2.orders, n.nodeId = loc.nodeId ∧ n.order.order_id = oid

/-- Structural coherence of a book state: side indices sorted by their
comparators, every level well-formed, lookup keys unique, and every lookup
entry resolving to a live node. -/
structure WF (s : OrderBook) : Prop where
  sorted : ∀ side : Bool,
    List.Pairwise (fun a b => sideCmp side a.1 b.1 = true) (sideLevels s side)
  levels : ∀ side : Bool, ∀ e ∈ sideLevels s side, levelWF side s.nextNode e.1 e.2
  lookNodup : (s.order_lookup_.map Prod.fst).Nodup
  lookRes : ∀ kv ∈ s.order_lookup_, entryResolves s kv.1 kv.2

/-- Every live node is pointed back at by the lookup entry of its order id
(the direction of the global invariant that fails under duplicate-id adds). -/
def nodesBack (s : OrderBook) : Prop :=
  ∀ side : Bool, ∀ e ∈ sideLevels s side, ∀ n ∈ e.2.orders,
    lkFind s.order_lookup_ n.order.order_id = some
      { is_buy := side, price := e.1, nodeId := n.nodeId }

/-- All live orders have positive quantity. -/
def PosQ (s : OrderBook) : Prop :=
  ∀ side : Bool, ∀ e ∈ sideLevels s side, ∀ n ∈ e.2.orders, 0 < n.order.quantity

/-- C1's aggregation conjunct, read literally: every visible level's
`total_quantity` equals the sum of its orders' quantities. -/
abbrev AggExact (s : OrderBook) : Prop :=
  ∀ e ∈ s.bids_ ++ s.asks_, e.2.total_quantity = levelSum e.2

/-- The aggregation property the `uint64_t` code actually maintains:
`total_quantity` equals the sum reduced modulo 2^64. -/
abbrev AggMod (s : OrderBook) : Prop :=
  ∀ e ∈ s.bids_ ++ s.asks_, e.2.total_quantity = levelSum e.2 % U64

/-- C1's lookup conjunct: every live order has exactly one lookup entry, and
that entry's `(is_buy, price)` resolves to the level actually containing the
order's node (the entry stores the node's own stable reference). -/
abbrev ResolvesUniquely (s : OrderBook) : Prop :=
  ∀ side : Bool, ∀ e ∈ sideLevels s side, ∀ n ∈ e.2.orders,
    s.order_lookup_.countP (fun kv => kv.1 == n.order.order_id) = 1 ∧
    ∀ kv ∈ s.order_lookup_, kv.1 = n.order.order_id →
      kv.2.is_buy = side ∧ kv.2.price = e.1 ∧ kv.2.nodeId = n.nodeId

/-- C2's property, read literally: every visible level has a non-empty queue
and a positive aggregate. -/
abbrev NoEmptyLevels (s : OrderBook) : Prop :=
  ∀ e ∈ s.bids_ ++ s.asks_, e.2.orders ≠ [] ∧ 0 < e.2.total_quantity

/-- Concrete book used by several witnesses: three buy orders at two prices
and two sell orders at two prices (the spec's worked scenario). -/
def bookA : OrderBook :=
  (((((emptyBook.add_order { order_id := 1, is_buy := true, price := 100, quantity := 50, timestamp_ns := 10 }).add_order
      { order_id := 2, is_buy := true, price := 100, quantity := 30, timestamp_ns := 11 }).add_order
      { order_id := 3, is_buy := true, price := 99, quantity := 100, timestamp_ns := 12 }).add_order
      { order_id := 4, is_buy := false, price := 101, quantity := 40, timestamp_ns := 13 }).add_order
      { order_id := 5, is_buy := false, price := 102, quantity := 60, timestamp_ns := 14 })

/-- Concrete book reaching a duplicate-id state: id 1 added twice, at price
100 and then at price 99. -/
def dupBook : OrderBook :=
  (emptyBook.add_order { order_id := 1, is_buy := true, price := 100, quantity := 50, timestamp_ns := 0 }).add_order
    { order_id := 1, is_buy := true, price := 99, quantity := 30, timestamp_ns := 1 }

/-- Concrete book reaching a zero-aggregate state: one order amended to
quantity 0 at an unchanged price. -/
def zeroBook : OrderBook :=
  ((emptyBook.add_order { order_id := 1, is_buy := true, price := 100, quantity := 50, timestamp_ns := 0 }).amend_order
    1 100 0).2

/-! ### Arithmetic lemmas for the `uint64_t` helpers -/

theorem U64_pos : 0 < U64 := by decide

theorem uadd_lt (a b : Nat) : uadd a b < U64 := Nat.mod_lt _ U64_pos

theorem usub_lt (a b : Nat) : usub a b < U64 := Nat.mod_lt _ U64_pos

theorem uadd_mod_left (a b : Nat) : uadd (a % U64) b = (a + b) % U64 := by
  unfold uadd
  rw [Nat.mod_add_mod]

theorem usub_mod_left (s b : Nat) (hle : b ≤ s) (hb : b < U64) :
    usub (s % U64) b = (s - b) % U64 := by
  unfold usub
  rw [Nat.mod_eq_of_lt hb, Nat.mod_add_mod]
  have h : s + (U64 - b) = (s - b) + U64 := by omega
  rw [h, Nat.add_mod_right]

theorem usub_uadd_cancel (a b : Nat) (ha : a < U64) (hb : b < U64) :
    usub (uadd a b) b = a := by
  have h1 : uadd a b = (a + b) % U64 := rfl
  rw [h1, usub_mod_left (a + b) b (Nat.le_add_left b a) hb]
  simp [Nat.mod_eq_of_lt ha]

theorem uadd_usub_amend (s old new : Nat) (hle : old ≤ s) (hold : old < U64) :
    uadd (usub (s % U64) old) new = (s - old + new) % U64 := by
  rw [usub_mod_left s old hle hold, uadd_mod_left]

/-! ### Comparator properties of the two sides -/

theorem bidLt_total (a b : Int) (h : a ≠ b) : bidLt a b = true ∨ bidLt b a = true := by
  simp only [bidLt, decide_eq_true_eq]
  omega

theorem bidLt_trans (a b c : Int) (h1 : bidLt a b = true) (h2 : bidLt b c = true) :
    bidLt a c = true := by
  simp only [bidLt, decide_eq_true_eq] at *
  omega

theorem bidLt_asym (a b : Int) (h1 : bidLt a b = true) (h2 : bidLt b a = true) : False := by
  simp only [bidLt, decide_eq_true_eq] at *
  omega

theorem bidLt_ne (a b : Int) (h : bidLt a b = true) : a ≠ b := by
  simp only [bidLt, decide_eq_true_eq] at h
  omega

theorem askLt_total (a b : Int) (h : a ≠ b) : askLt a b = true ∨ askLt b a = true := by
  simp only [askLt, decide_eq_true_eq]
  omega

theorem askLt_trans (a b c : Int) (h1 : askLt a b = true) (h2 : askLt b c = true) :
    askLt a c = true := by
  simp only [askLt, decide_eq_true_eq] at *
  omega

theorem askLt_asym (a b : Int) (h1 : askLt a b = true) (h2 : askLt b a = true) : False := by
  simp only [askLt, decide_eq_true_eq] at *
  omega

theorem askLt_ne (a b : Int) (h : askLt a b = true) : a ≠ b := by
  simp only [askLt, decide_eq_true_eq] at h
  omega

/-! ### Side-index (sorted association list) lemmas -/

theorem levFind_levInsert_self (lt : Int → Int → Bool) (m : SMap) (p : Int)
    (v : PriceLevelData) : levFind (levInsert lt m p v) p = some v := by
  induction m with
  | nil => simp [levInsert, levFind]
  | cons e t ih =>
    obtain ⟨k, w⟩ := e
    by_cases hpk : p = k
    · simp [levInsert, hpk, levFind]
    · by_cases hlt : lt p k = true
      · simp [levInsert, hpk, hlt, levFind]
      · simp [levInsert, hpk, hlt, levFind, ih]

theorem levFind_levInsert_ne (lt : Int → Int → Bool) (m : SMap) (p q : Int)
    (v : PriceLevelData) (hne : q ≠ p) :
    levFind (levInsert lt m p v) q = levFind m q := by
  induction m with
  | nil => simp [levInsert, levFind, hne]
  | cons e t ih =>
    obtain ⟨k, w⟩ := e
    by_cases hpk : p = k
    · subst hpk
      simp [levInsert, levFind, hne]
    · by_cases hlt : lt p k = true
      · simp [levInsert, hpk, hlt, levFind, hne]
      · simp [levInsert, hpk, hlt, levFind, ih]

theorem mem_levInsert (lt : Int → Int → Bool) (m : SMap) (p : Int)
    (v : PriceLevelData) (x : Int × PriceLevelData) (hx : x ∈ levInsert lt m p v) :
    x = (p, v) ∨ x ∈ m := by
  induction m with
  | nil =>
    simp [levInsert] at hx
    exact Or.inl hx
  | cons e t ih =>
    obtain ⟨k, w⟩ := e
    by_cases hpk : p = k
    · simp [levInsert, hpk] at hx
      rcases hx with h | h
      · exact Or.inl (by simp [h, hpk])
      · exact Or.inr (List.mem_cons_of_mem _ h)
    · by_cases hlt : lt p k = true
      · simp [levInsert, hpk, hlt] at hx
        rcases hx with h | h | h
        · exact Or.inl (by simp [h])
        · exact Or.inr (by simp [h])
        · exact Or.inr (List.mem_cons_of_mem _ h)
      · simp [levInsert, hpk, hlt] at hx
        rcases hx with h | h
        · exact Or.inr (by simp [h])
        · rcases ih h with h' | h'
          · exact Or.inl h'
          · exact Or.inr (List.mem_cons_of_mem _ h')

theorem self_mem_levInsert (lt : Int → Int → Bool) (m : SMap) (p : Int)
    (v : PriceLevelData) : (p, v) ∈ levInsert lt m p v := by
  induction m with
  | nil => simp [levInsert]
  | cons e t ih =>
    obtain ⟨k, w⟩ := e
    by_cases hpk : p = k
    · simp [levInsert, hpk]
    · by_cases hlt : lt p k = true
      · simp [levInsert, hpk, hlt]
      · simp only [levInsert, if_neg hpk, if_neg hlt]
        exact List.mem_cons_of_mem _ ih

theorem mem_levInsert_of_ne (lt : Int → Int → Bool) (m : SMap) (p : Int)
    (v : PriceLevelData) (x : Int × PriceLevelData) (hx : x ∈ m) (hne : x.1 ≠ p) :
    x ∈ levInsert lt m p v := by
  induction m with
  | nil => simp at hx
  | cons e t ih =>
    obtain ⟨k, w⟩ := e
    rcases List.mem_cons.mp hx with h | h
    · subst h
      by_cases hpk : p = k
      · exact absurd hpk.symm hne
      · by_cases hlt : lt p k = true
        · simp [levInsert, hpk, hlt]
        · simp [levInsert, hpk, hlt]
    · by_cases hpk : p = k
      · simp only [levInsert, if_pos hpk]
        exact List.mem_cons_of_mem _ h
      · by_cases hlt : lt p k = true
        · simp only [levInsert, if_neg hpk, if_pos hlt]
          exact List.mem_cons_of_mem _ (List.mem_cons_of_mem _ h)
        · simp only [levInsert, if_neg hpk, if_neg hlt]
          exact List.mem_cons_of_mem _ (ih h)

theorem sorted_levInsert (lt : Int → Int → Bool)
    (htot : ∀ a b : Int, a ≠ b → lt a b = true ∨ lt b a = true)
    (htrans : ∀ a b c : Int, lt a b = true → lt b c = true → lt a c = true)
    (m : SMap) (p : Int) (v : PriceLevelData)
    (hs : List.Pairwise (fun a b => lt a.1 b.1 = true) m) :
    List.Pairwise (fun a b => lt a.1 b.1 = true) (levInsert lt m p v) := by
  induction m with
  | nil => simp [levInsert]
  | cons e t ih =>
    obtain ⟨k, w⟩ := e
    rw [List.pairwise_cons] at hs
    obtain ⟨hhead, ht⟩ := hs
    by_cases hpk : p = k
    · subst hpk
      simp only [levInsert, if_pos rfl]
      exact List.pairwise_cons.mpr ⟨hhead, ht⟩
    · by_cases hlt : lt p k = true
      · simp only [levInsert, if_neg hpk, if_pos hlt]
        refine List.pairwise_cons.mpr ⟨?_, List.pairwise_cons.mpr ⟨hhead, ht⟩⟩
        intro y hy
        rcases List.mem_cons.mp hy with h | h
        · subst h
          exact hlt
        · exact htrans p k y.1 hlt (hhead y h)
      · have hkp : lt k p = true := by
          rcases htot p k hpk with h | h
          · exact absurd h hlt
          · exact h
        simp only [levInsert, if_neg hpk, if_neg hlt]
        refine List.pairwise_cons.mpr ⟨?_, ih ht⟩
        intro y hy
        rcases mem_levInsert lt t p v y hy with h | h
        · rw [h]
          exact hkp
        · exact hhead y h

theorem levFind_mem (m : SMap) (p : Int) (v : PriceLevelData)
    (h : levFind m p = some v) : (p, v) ∈ m := by
  induction m with
  | nil => simp [levFind] at h
  | cons e t ih =>
    obtain ⟨k, w⟩ := e
    by_cases hpk : p = k
    · subst hpk
      simp [levFind] at h
      simp [h]
    · simp [levFind, hpk] at h
      exact List.mem_cons_of_mem _ (ih h)

theorem mem_levFind (m : SMap) (p : Int) (v : PriceLevelData)
    (hnd : (m.map Prod.fst).Nodup) (h : (p, v) ∈ m) : levFind m p = some v := by
  induction m with
  | nil => simp at h
  | cons e t ih =>
    obtain ⟨k, w⟩ := e
    simp only [List.map_cons, List.nodup_cons] at hnd
    rcases List.mem_cons.mp h with h' | h'
    · rw [Prod.mk.injEq] at h'
      simp [levFind, h'.1, h'.2]
    · have hpk : p ≠ k := by
        intro heq
        subst heq
        exact hnd.1 (List.mem_map.mpr ⟨(p, v), h', rfl⟩)
      simp [levFind, hpk]
      exact ih hnd.2 h'

theorem levFind_none_not_mem (m : SMap) (p : Int) (v : PriceLevelData)
    (h : levFind m p = none) : (p, v) ∉ m := by
  induction m with
  | nil => simp
  | cons e t ih =>
    obtain ⟨k, w⟩ := e
    by_cases hpk : p = k
    · subst hpk
      simp [levFind] at h
    · simp [levFind, hpk] at h
      intro hmem
      rcases List.mem_cons.mp hmem with h' | h'
      · rw [Prod.mk.injEq] at h'
        exact hpk h'.1
      · exact ih h h'

theorem levErase_sublist (m : SMap) (p : Int) : (levErase m p).Sublist m := by
  induction m with
  | nil => simp [levErase]
  | cons e t ih =>
    obtain ⟨k, w⟩ := e
    by_cases hpk : p = k
    · simp only [levErase, if_pos hpk]
      exact List.sublist_cons_self _ _
    · simp only [levErase, if_neg hpk]
      exact List.Sublist.cons₂ _ ih

theorem levErase_levInsert_fresh (lt : Int → Int → Bool) (m : SMap) (p : Int)
    (v : PriceLevelData) (h : levFind m p = none) :
    levErase (levInsert lt m p v) p = m := by
  induction m with
  | nil => simp [levInsert, levErase]
  | cons e t ih =>
    obtain ⟨k, w⟩ := e
    by_cases hpk : p = k
    · subst hpk
      simp [levFind] at h
    · simp only [levFind, if_neg hpk] at h
      by_cases hlt : lt p k = true
      · simp [levInsert, hpk, hlt, levErase]
      · simp only [levInsert, if_neg hpk, if_neg hlt, levErase, if_neg hpk]
        rw [ih h]

theorem levFind_levErase_ne (m : SMap) (p q : Int) (hne : q ≠ p) :
    levFind (levErase m p) q = levFind m q := by
  induction m with
  | nil => simp [levErase]
  | cons e t ih =>
    obtain ⟨k, w⟩ := e
    by_cases hpk : p = k
    · subst hpk
      simp [levErase, levFind, hne]
    · by_cases hqk : q = k
      · simp [levErase, hpk, levFind, hqk]
      · simp [levErase, hpk, levFind, hqk, ih]

theorem mem_levErase_of_ne (m : SMap) (p : Int) (x : Int × PriceLevelData)
    (hx : x ∈ m) (hne : x.1 ≠ p) : x ∈ levErase m p := by
  induction m with
  | nil => simp at hx
  | cons e t ih =>
    obtain ⟨k, w⟩ := e
    by_cases hpk : p = k
    · subst hpk
      rcases List.mem_cons.mp hx with h | h
      · subst h
        exact absurd rfl hne
      · simpa [levErase] using h
    · simp only [levErase, if_neg hpk]
      rcases List.mem_cons.mp hx with h | h
      · exact h ▸ List.mem_cons_self _ _
      · exact List.mem_cons_of_mem _ (ih h)

theorem levFind_levSet_self (m : SMap) (p : Int) (v w : PriceLevelData)
    (h : levFind m p = some w) : levFind (levSet m p v) p = some v := by
  induction m with
  | nil => simp [levFind] at h
  | cons e t ih =>
    obtain ⟨k, x⟩ := e
    by_cases hpk : p = k
    · simp [levSet, hpk, levFind]
    · simp only [levFind, if_neg hpk] at h
      simp [levSet, hpk, levFind, ih h]

theorem levFind_levSet_ne (m : SMap) (p q : Int) (v : PriceLevelData) (hne : q ≠ p) :
    levFind (levSet m p v) q = levFind m q := by
  induction m with
  | nil => simp [levSet]
  | cons e t ih =>
    obtain ⟨k, x⟩ := e
    by_cases hpk : p = k
    · subst hpk
      simp [levSet, levFind, hne]
    · by_cases hqk : q = k
      · simp [levSet, hpk, levFind, hqk]
      · simp [levSet, hpk, levFind, hqk, ih]

theorem keys_levSet (m : SMap) (p : Int) (v : PriceLevelData) :
    (levSet m p v).map Prod.fst = m.map Prod.fst := by
  induction m with
  | nil => simp [levSet]
  | cons e t ih =>
    obtain ⟨k, x⟩ := e
    by_cases hpk : p = k
    · simp [levSet, hpk]
    · simp [levSet, hpk, ih]

theorem mem_levSet (m : SMap) (p : Int) (v : PriceLevelData)
    (hnd : (m.map Prod.fst).Nodup) (x : Int × PriceLevelData) (hx : x ∈ levSet m p v) :
    x = (p, v) ∨ (x ∈ m ∧ x.1 ≠ p) := by
  induction m with
  | nil => simp [levSet] at hx
  | cons e t ih =>
    obtain ⟨k, w⟩ := e
    simp only [List.map_cons, List.nodup_cons] at hnd
    by_cases hpk : p = k
    · subst hpk
      simp only [levSet, if_pos rfl] at hx
      rcases List.mem_cons.mp hx with h | h
      · exact Or.inl h
      · refine Or.inr ⟨List.mem_cons_of_mem _ h, ?_⟩
        intro heq
        exact hnd.1 (heq ▸ List.mem_map.mpr ⟨x, h, rfl⟩)
    · simp only [levSet, if_neg hpk] at hx
      rcases List.mem_cons.mp hx with h | h
      · subst h
        exact Or.inr ⟨List.mem_cons_self _ _, fun heq => hpk heq.symm⟩
      · rcases ih hnd.2 h with h' | h'
        · exact Or.inl h'
        · exact Or.inr ⟨List.mem_cons_of_mem _ h'.1, h'.2⟩

theorem sorted_levSet (lt : Int → Int → Bool) (m : SMap) (p : Int) (v : PriceLevelData)
    (hs : List.Pairwise (fun a b => lt a.1 b.1 = true) m) :
    List.Pairwise (fun a b => lt a.1 b.1 = true) (levSet m p v) := by
  have h1 : List.Pairwise (fun a b : Int => lt a b = true) (m.map Prod.fst) :=
    (List.pairwise_map).mpr hs
  have h2 : List.Pairwise (fun a b : Int => lt a b = true) ((levSet m p v).map Prod.fst) := by
    rw [keys_levSet]
    exact h1
  exact (List.pairwise_map).mp h2

theorem levSet_levInsert (lt : Int → Int → Bool) (m : SMap) (p : Int)
    (v w : PriceLevelData) : levSet (levInsert lt m p v) p w = levInsert lt m p w := by
  induction m with
  | nil => simp [levInsert, levSet]
  | cons e t ih =>
    obtain ⟨k, x⟩ := e
    by_cases hpk : p = k
    · simp [levInsert, hpk, levSet]
    · by_cases hlt : lt p k = true
      · simp [levInsert, hpk, hlt, levSet]
      · simp [levInsert, hpk, hlt, levSet, ih]

theorem levInsert_of_mem (lt : Int → Int → Bool)
    (hasym : ∀ a b : Int, lt a b = true → lt b a = true → False)
    (m : SMap) (p : Int) (w : PriceLevelData)
    (hs : List.Pairwise (fun a b => lt a.1 b.1 = true) m) (hmem : (p, w) ∈ m) :
    levInsert lt m p w = m := by
  induction m with
  | nil => simp at hmem
  | cons e t ih =>
    obtain ⟨k, x⟩ := e
    rw [List.pairwise_cons] at hs
    obtain ⟨hhead, ht⟩ := hs
    rcases List.mem_cons.mp hmem with h | h
    · rw [Prod.mk.injEq] at h
      simp [levInsert, h.1, h.2]
    · have hkp : lt k p = true := hhead (p, w) h
      have hpk : ¬ p = k := by
        intro heq
        subst heq
        exact hasym p p hkp hkp
      have hlt : ¬ lt p k = true := fun hc => hasym k p hkp hc
      simp only [levInsert, if_neg hpk, if_neg hlt]
      rw [ih ht h]

/-! ### Level-queue (node list) lemmas -/

theorem findNode_mem (l : List OrderNode) (nid : Nat) (n : OrderNode)
    (h : findNode l nid = some n) : n ∈ l ∧ n.nodeId = nid := by
  induction l with
  | nil => simp [findNode] at h
  | cons x t ih =>
    by_cases hx : x.nodeId = nid
    · simp [findNode, hx] at h
      subst h
      exact ⟨List.mem_cons_self _ _, hx⟩
    · simp [findNode, hx] at h
      obtain ⟨h1, h2⟩ := ih h
      exact ⟨List.mem_cons_of_mem _ h1, h2⟩

theorem findNode_none_iff (l : List OrderNode) (nid : Nat) :
    findNode l nid = none ↔ ∀ n ∈ l, n.nodeId ≠ nid := by
  induction l with
  | nil => simp [findNode]
  | cons x t ih =>
    by_cases hx : x.nodeId = nid
    · simp [findNode, hx]
    · simp [findNode, hx, ih]

theorem findNode_eq_of_nodup (l : List OrderNode) (nid : Nat) (n : OrderNode)
    (hnd : (l.map OrderNode.nodeId).Nodup) (hmem : n ∈ l) (hid : n.nodeId = nid) :
    findNode l nid = some n := by
  induction l with
  | nil => simp at hmem
  | cons x t ih =>
    simp only [List.map_cons, List.nodup_cons] at hnd
    rcases List.mem_cons.mp hmem with h | h
    · subst h
      simp [findNode, hid]
    · have hx : x.nodeId ≠ nid := by
        intro heq
        exact hnd.1 (heq ▸ hid ▸ List.mem_map.mpr ⟨n, h, rfl⟩)
      simp [findNode, hx]
      exact ih hnd.2 h

theorem findNode_append_last (l : List OrderNode) (x : OrderNode) (nid : Nat)
    (hl : ∀ n ∈ l, n.nodeId ≠ nid) (hx : x.nodeId = nid) :
    findNode (l ++ [x]) nid = some x := by
  induction l with
  | nil => simp [findNode, hx]
  | cons y t ih =>
    have hy : y.nodeId ≠ nid := hl y (List.mem_cons_self _ _)
    simp only [List.cons_append, findNode, if_neg hy]
    exact ih fun n hn => hl n (List.mem_cons_of_mem _ hn)

theorem eraseNode_append_fresh (l : List OrderNode) (x : OrderNode) (nid : Nat)
    (hl : ∀ n ∈ l, n.nodeId ≠ nid) (hx : x.nodeId = nid) :
    eraseNode (l ++ [x]) nid = l := by
  induction l with
  | nil => simp [eraseNode, hx]
  | cons y t ih =>
    have hy : y.nodeId ≠ nid := hl y (List.mem_cons_self _ _)
    have h' := ih fun n hn => hl n (List.mem_cons_of_mem _ hn)
    simp only [List.cons_append, eraseNode, if_neg hy]
    exact congrArg (y :: ·) h'

theorem eraseNode_sublist (l : List OrderNode) (nid : Nat) :
    (eraseNode l nid).Sublist l := by
  induction l with
  | nil => simp [eraseNode]
  | cons x t ih =>
    by_cases hx : x.nodeId = nid
    · simp only [eraseNode, if_pos hx]
      exact List.sublist_cons_self _ _
    · simp only [eraseNode, if_neg hx]
      exact List.Sublist.cons₂ _ ih

theorem mem_eraseNode_of_ne (l : List OrderNode) (nid : Nat) (n : OrderNode)
    (hmem : n ∈ l) (hne : n.nodeId ≠ nid) : n ∈ eraseNode l nid := by
  induction l with
  | nil => simp at hmem
  | cons x t ih =>
    by_cases hx : x.nodeId = nid
    · simp only [eraseNode, if_pos hx]
      rcases List.mem_cons.mp hmem with h | h
      · exact absurd (h ▸ hx) hne
      · exact h
    · simp only [eraseNode, if_neg hx]
      rcases List.mem_cons.mp hmem with h | h
      · exact h ▸ List.mem_cons_self _ _
      · exact List.mem_cons_of_mem _ (ih h)

theorem sumQ_nil : sumQ [] = 0 := rfl

theorem sumQ_cons (x : OrderNode) (t : List OrderNode) :
    sumQ (x :: t) = x.order.quantity + sumQ t := by
  simp [sumQ]

theorem sumQ_append (l₁ l₂ : List OrderNode) : sumQ (l₁ ++ l₂) = sumQ l₁ + sumQ l₂ := by
  simp [sumQ]

theorem le_sumQ_of_mem (l : List OrderNode) (n : OrderNode) (h : n ∈ l) :
    n.order.quantity ≤ sumQ l := by
  induction l with
  | nil => simp at h
  | cons x t ih =>
    rw [sumQ_cons]
    rcases List.mem_cons.mp h with h' | h'
    · subst h'
      omega
    · have := ih h'
      omega

theorem sumQ_eraseNode (l : List OrderNode) (nid : Nat) (n : OrderNode)
    (h : findNode l nid = some n) :
    sumQ (eraseNode l nid) = sumQ l - n.order.quantity := by
  induction l with
  | nil => simp [findNode] at h
  | cons x t ih =>
    by_cases hx : x.nodeId = nid
    · simp [findNode, hx] at h
      subst h
      simp only [eraseNode, if_pos hx]
      rw [sumQ_cons]
      omega
    · simp only [findNode, if_neg hx] at h
      have hle : n.order.quantity ≤ sumQ t := le_sumQ_of_mem t n (findNode_mem t nid n h).1
      simp only [eraseNode, if_neg hx]
      rw [sumQ_cons, sumQ_cons, ih h]
      omega

theorem map_nodeId_setNodeQty (l : List OrderNode) (nid q : Nat) :
    (setNodeQty l nid q).map OrderNode.nodeId = l.map OrderNode.nodeId := by
  induction l with
  | nil => simp [setNodeQty]
  | cons x t ih =>
    by_cases hx : x.nodeId = nid
    · simp [setNodeQty, hx]
    · simp [setNodeQty, hx, ih]

theorem findNode_setNodeQty_self (l : List OrderNode) (nid q : Nat) (n : OrderNode)
    (h : findNode l nid = some n) :
    findNode (setNodeQty l nid q) nid =
      some { n with order := { n.order with quantity := q } } := by
  induction l with
  | nil => simp [findNode] at h
  | cons x t ih =>
    by_cases hx : x.nodeId = nid
    · simp [findNode, hx] at h
      subst h
      simp [setNodeQty, hx, findNode]
    · simp only [findNode, if_neg hx] at h
      simp only [setNodeQty, if_neg hx, findNode, if_neg hx]
      exact ih h

theorem mem_setNodeQty (l : List OrderNode) (nid q : Nat) (x : OrderNode)
    (hx : x ∈ setNodeQty l nid q) :
    (∃ y ∈ l, y.nodeId = nid ∧ x = { y with order := { y.order with quantity := q } }) ∨
      x ∈ l := by
  induction l with
  | nil => simp [setNodeQty] at hx
  | cons z t ih =>
    by_cases hz : z.nodeId = nid
    · simp only [setNodeQty, if_pos hz] at hx
      rcases List.mem_cons.mp hx with h | h
      · exact Or.inl ⟨z, List.mem_cons_self _ _, hz, h⟩
      · exact Or.inr (List.mem_cons_of_mem _ h)
    · simp only [setNodeQty, if_neg hz] at hx
      rcases List.mem_cons.mp hx with h | h
      · exact Or.inr (h ▸ List.mem_cons_self _ _)
      · rcases ih h with ⟨y, hy, hid, heq⟩ | h'
        · exact Or.inl ⟨y, List.mem_cons_of_mem _ hy, hid, heq⟩
        · exact Or.inr (List.mem_cons_of_mem _ h')

theorem mem_setNodeQty_of_ne (l : List OrderNode) (nid q : Nat) (x : OrderNode)
    (hx : x ∈ l) (hne : x.nodeId ≠ nid) : x ∈ setNodeQty l nid q := by
  induction l with
  | nil => simp at hx
  | cons z t ih =>
    by_cases hz : z.nodeId = nid
    · simp only [setNodeQty, if_pos hz]
      rcases List.mem_cons.mp hx with h | h
      · exact absurd (h ▸ hz) hne
      · exact List.mem_cons_of_mem _ h
    · simp only [setNodeQty, if_neg hz]
      rcases List.mem_cons.mp hx with h | h
      · exact h ▸ List.mem_cons_self _ _
      · exact List.mem_cons_of_mem _ (ih h)

theorem length_setNodeQty (l : List OrderNode) (nid q : Nat) :
    (setNodeQty l nid q).length = l.length := by
  induction l with
  | nil => simp [setNodeQty]
  | cons z t ih =>
    by_cases hz : z.nodeId = nid
    · simp [setNodeQty, hz]
    · simp [setNodeQty, hz, ih]

theorem setNodeQty_ne_nil (l : List OrderNode) (nid q : Nat) (h : l ≠ []) :
    setNodeQty l nid q ≠ [] := by
  intro hc
  have := length_setNodeQty l nid q
  rw [hc] at this
  simp at this
  exact h (List.length_eq_zero.mp this.symm)

theorem sumQ_setNodeQty (l : List OrderNode) (nid q : Nat) (n : OrderNode)
    (h : findNode l nid = some n) :
    sumQ (setNodeQty l nid q) = sumQ l - n.order.quantity + q := by
  induction l with
  | nil => simp [findNode] at h
  | cons x t ih =>
    by_cases hx : x.nodeId = nid
    · simp [findNode, hx] at h
      subst h
      simp only [setNodeQty, if_pos hx]
      rw [sumQ_cons, sumQ_cons]
      simp
      omega
    · simp only [findNode, if_neg hx] at h
      have hle : n.order.quantity ≤ sumQ t := le_sumQ_of_mem t n (findNode_mem t nid n h).1
      simp only [setNodeQty, if_neg hx]
      rw [sumQ_cons, sumQ_cons, ih h]
      omega

/-! ### Order-lookup (association list) lemmas -/

theorem lkFind_lkSet_self (m : LMap) (k : Nat) (v : OrderLocation) :
    lkFind (lkSet m k v) k = some v := by
  induction m with
  | nil => simp [lkSet, lkFind]
  | cons e t ih =>
    obtain ⟨k', w⟩ := e
    by_cases hk : k = k'
    · simp [lkSet, hk, lkFind]
    · simp [lkSet, hk, lkFind, ih]

theorem lkFind_lkSet_ne (m : LMap) (k j : Nat) (v : OrderLocation) (hne : j ≠ k) :
    lkFind (lkSet m k v) j = lkFind m j := by
  induction m with
  | nil => simp [lkSet, lkFind, hne]
  | cons e t ih =>
    obtain ⟨k', w⟩ := e
    by_cases hk : k = k'
    · subst hk
      simp [lkSet, lkFind, hne]
    · by_cases hj : j = k'
      · simp [lkSet, hk, lkFind, hj]
      · simp [lkSet, hk, lkFind, hj, ih]

theorem lkFind_mem (m : LMap) (k : Nat) (v : OrderLocation)
    (h : lkFind m k = some v) : (k, v) ∈ m := by
  induction m with
  | nil => simp [lkFind] at h
  | cons e t ih =>
    obtain ⟨k', w⟩ := e
    by_cases hk : k = k'
    · subst hk
      simp [lkFind] at h
      simp [h]
    · simp [lkFind, hk] at h
      exact List.mem_cons_of_mem _ (ih h)

theorem mem_lkFind (m : LMap) (k : Nat) (v : OrderLocation)
    (hnd : (m.map Prod.fst).Nodup) (h : (k, v) ∈ m) : lkFind m k = some v := by
  induction m with
  | nil => simp at h
  | cons e t ih =>
    obtain ⟨k', w⟩ := e
    simp only [List.map_cons, List.nodup_cons] at hnd
    rcases List.mem_cons.mp h with h' | h'
    · rw [Prod.mk.injEq] at h'
      simp [lkFind, h'.1, h'.2]
    · have hk : k ≠ k' := by
        intro heq
        subst heq
        exact hnd.1 (List.mem_map.mpr ⟨(k, v), h', rfl⟩)
      simp [lkFind, hk]
      exact ih hnd.2 h'

theorem lkFind_none_not_key (m : LMap) (k : Nat) (h : lkFind m k = none) :
    k ∉ m.map Prod.fst := by
  induction m with
  | nil => simp
  | cons e t ih =>
    obtain ⟨k', w⟩ := e
    by_cases hk : k = k'
    · subst hk
      simp [lkFind] at h
    · simp [lkFind, hk] at h
      simp [hk, ih h]

theorem lkeys_lkSet_found (m : LMap) (k : Nat) (v w : OrderLocation)
    (h : lkFind m k = some w) : (lkSet m k v).map Prod.fst = m.map Prod.fst := by
  induction m with
  | nil => simp [lkFind] at h
  | cons e t ih =>
    obtain ⟨k', x⟩ := e
    by_cases hk : k = k'
    · simp [lkSet, hk]
    · simp only [lkFind, if_neg hk] at h
      simp [lkSet, hk, ih h]

theorem lkeys_lkSet_fresh (m : LMap) (k : Nat) (v : OrderLocation)
    (h : lkFind m k = none) : (lkSet m k v).map Prod.fst = m.map Prod.fst ++ [k] := by
  induction m with
  | nil => simp [lkSet]
  | cons e t ih =>
    obtain ⟨k', x⟩ := e
    by_cases hk : k = k'
    · subst hk
      simp [lkFind] at h
    · simp only [lkFind, if_neg hk] at h
      simp [lkSet, hk, ih h]

theorem nodup_lkSet (m : LMap) (k : Nat) (v : OrderLocation)
    (hnd : (m.map Prod.fst).Nodup) : ((lkSet m k v).map Prod.fst).Nodup := by
  cases hfind : lkFind m k with
  | some w => rw [lkeys_lkSet_found m k v w hfind]; exact hnd
  | none =>
    rw [lkeys_lkSet_fresh m k v hfind]
    rw [List.nodup_append]
    exact ⟨hnd, List.nodup_singleton _, by
      intro a ha hb
      simp only [List.mem_singleton] at hb
      exact lkFind_none_not_key m k hfind (hb ▸ ha)⟩

theorem lkErase_lkSet_fresh (m : LMap) (k : Nat) (v : OrderLocation)
    (h : lkFind m k = none) : lkErase (lkSet m k v) k = m := by
  induction m with
  | nil => simp [lkSet, lkErase]
  | cons e t ih =>
    obtain ⟨k', x⟩ := e
    by_cases hk : k = k'
    · subst hk
      simp [lkFind] at h
    · simp only [lkFind, if_neg hk] at h
      simp [lkSet, hk, lkErase, ih h]

theorem lkErase_sublist (m : LMap) (k : Nat) : (lkErase m k).Sublist m := by
  induction m with
  | nil => simp [lkErase]
  | cons e t ih =>
    obtain ⟨k', x⟩ := e
    by_cases hk : k = k'
    · simp only [lkErase, if_pos hk]
      exact List.sublist_cons_self _ _
    · simp only [lkErase, if_neg hk]
      exact List.Sublist.cons₂ _ ih

theorem lkFind_eq_none_of_not_key (m : LMap) (k : Nat) (h : k ∉ m.map Prod.fst) :
    lkFind m k = none := by
  induction m with
  | nil => simp [lkFind]
  | cons e t ih =>
    obtain ⟨k', x⟩ := e
    simp only [List.map_cons, List.mem_cons, not_or] at h
    simp [lkFind, h.1, ih h.2]

theorem lkFind_lkErase_self (m : LMap) (k : Nat) (hnd : (m.map Prod.fst).Nodup) :
    lkFind (lkErase m k) k = none := by
  induction m with
  | nil => simp [lkErase, lkFind]
  | cons e t ih =>
    obtain ⟨k', x⟩ := e
    simp only [List.map_cons, List.nodup_cons] at hnd
    by_cases hk : k = k'
    · subst hk
      simp only [lkErase, if_pos rfl]
      exact lkFind_eq_none_of_not_key t k hnd.1
    · simp only [lkErase, if_neg hk, lkFind, if_neg hk]
      exact ih hnd.2

theorem lkFind_lkErase_ne (m : LMap) (k j : Nat) (hne : j ≠ k) :
    lkFind (lkErase m k) j = lkFind m j := by
  induction m with
  | nil => simp [lkErase]
  | cons e t ih =>
    obtain ⟨k', x⟩ := e
    by_cases hk : k = k'
    · subst hk
      simp [lkErase, lkFind, hne]
    · by_cases hj : j = k'
      · simp [lkErase, hk, lkFind, hj]
      · simp [lkErase, hk, lkFind, hj, ih]

theorem mem_lkErase_of_ne (m : LMap) (k : Nat) (x : Nat × OrderLocation)
    (hx : x ∈ m) (hne : x.1 ≠ k) : x ∈ lkErase m k := by
  induction m with
  | nil => simp at hx
  | cons e t ih =>
    obtain ⟨k', w⟩ := e
    by_cases hk : k = k'
    · subst hk
      rcases List.mem_cons.mp hx with h | h
      · subst h
        exact absurd rfl hne
      · simpa [lkErase] using h
    · simp only [lkErase, if_neg hk]
      rcases List.mem_cons.mp hx with h | h
      · exact h ▸ List.mem_cons_self _ _
      · exact List.mem_cons_of_mem _ (ih h)

theorem mem_lkErase_nodup (m : LMap) (k : Nat) (hnd : (m.map Prod.fst).Nodup)
    (x : Nat × OrderLocation) (hx : x ∈ lkErase m k) : x ∈ m ∧ x.1 ≠ k := by
  induction m with
  | nil => simp [lkErase] at hx
  | cons e t ih =>
    obtain ⟨k', w⟩ := e
    simp only [List.map_cons, List.nodup_cons] at hnd
    by_cases hk : k = k'
    · subst hk
      simp only [lkErase, if_pos rfl] at hx
      refine ⟨List.mem_cons_of_mem _ hx, ?_⟩
      intro heq
      exact hnd.1 (heq ▸ List.mem_map.mpr ⟨x, hx, rfl⟩)
    · simp only [lkErase, if_neg hk] at hx
      rcases List.mem_cons.mp hx with h | h
      · subst h
        exact ⟨List.mem_cons_self _ _, fun heq => hk heq.symm⟩
      · obtain ⟨h1, h2⟩ := ih hnd.2 h
        exact ⟨List.mem_cons_of_mem _ h1, h2⟩

theorem mem_lkSet (m : LMap) (k : Nat) (v : OrderLocation)
    (hnd : (m.map Prod.fst).Nodup) (x : Nat × OrderLocation) (hx : x ∈ lkSet m k v) :
    x = (k, v) ∨ (x ∈ m ∧ x.1 ≠ k) := by
  induction m with
  | nil =>
    simp [lkSet] at hx
    exact Or.inl hx
  | cons e t ih =>
    obtain ⟨k', w⟩ := e
    simp only [List.map_cons, List.nodup_cons] at hnd
    by_cases hk : k = k'
    · subst hk
      simp only [lkSet, if_pos rfl] at hx
      rcases List.mem_cons.mp hx with h | h
      · exact Or.inl h
      · refine Or.inr ⟨List.mem_cons_of_mem _ h, ?_⟩
        intro heq
        exact hnd.1 (heq ▸ List.mem_map.mpr ⟨x, h, rfl⟩)
    · simp only [lkSet, if_neg hk] at hx
      rcases List.mem_cons.mp hx with h | h
      · subst h
        exact Or.inr ⟨List.mem_cons_self _ _, fun heq => hk heq.symm⟩
      · rcases ih hnd.2 h with h' | h'
        · exact Or.inl h'
        · exact Or.inr ⟨List.mem_cons_of_mem _ h'.1, h'.2⟩

theorem countP_key_eq_one (m : LMap) (k : Nat) (v : OrderLocation)
    (hnd : (m.map Prod.fst).Nodup) (h : lkFind m k = some v) :
    m.countP (fun kv => kv.1 == k) = 1 := by
  induction m with
  | nil => simp [lkFind] at h
  | cons e t ih =>
    obtain ⟨k', w⟩ := e
    simp only [List.map_cons, List.nodup_cons] at hnd
    by_cases hk : k = k'
    · subst hk
      rw [List.countP_cons]
      have hzero : t.countP (fun kv => kv.1 == k) = 0 := by
        rw [List.countP_eq_zero]
        intro a ha
        simp only [beq_iff_eq]
        intro heq
        exact hnd.1 (heq ▸ List.mem_map.mpr ⟨a, ha, rfl⟩)
      simp [hzero]
    · simp only [lkFind, if_neg hk] at h
      have hfalse : ((k', w).1 == k) = false := by
        simp only [beq_eq_false_iff_ne, ne_eq]
        exact fun heq => hk heq.symm
      rw [List.countP_cons, hfalse]
      simp [ih hnd.2 h]

/-! ### Generic side-comparator properties and further map lemmas -/

theorem sideCmp_total (side : Bool) (a b : Int) (h : a ≠ b) :
    sideCmp side a b = true ∨ sideCmp side b a = true := by
  cases side
  · simpa [sideCmp] using askLt_total a b h
  · simpa [sideCmp] using bidLt_total a b h

theorem sideCmp_trans (side : Bool) (a b c : Int) (h1 : sideCmp side a b = true)
    (h2 : sideCmp side b c = true) : sideCmp side a c = true := by
  cases side
  · simp only [sideCmp, if_neg Bool.false_ne_true] at *
    exact askLt_trans a b c h1 h2
  · simp only [sideCmp, if_pos rfl] at *
    exact bidLt_trans a b c h1 h2

theorem sideCmp_asym (side : Bool) (a b : Int) (h1 : sideCmp side a b = true)
    (h2 : sideCmp side b a = true) : False := by
  cases side
  · simp only [sideCmp, if_neg Bool.false_ne_true] at *
    exact askLt_asym a b h1 h2
  · simp only [sideCmp, if_pos rfl] at *
    exact bidLt_asym a b h1 h2

theorem sideCmp_ne (side : Bool) (a b : Int) (h : sideCmp side a b = true) : a ≠ b := by
  cases side
  · simp only [sideCmp, if_neg Bool.false_ne_true] at h
    exact askLt_ne a b h
  · simp only [sideCmp, if_pos rfl] at h
    exact bidLt_ne a b h

theorem keysNodup_of_sorted (lt : Int → Int → Bool)
    (hne : ∀ a b : Int, lt a b = true → a ≠ b) (m : SMap)
    (hs : List.Pairwise (fun a b => lt a.1 b.1 = true) m) : (m.map Prod.fst).Nodup :=
  (List.pairwise_map).mpr (hs.imp fun h => hne _ _ h)

theorem mem_levSet_of_ne (m : SMap) (p : Int) (v : PriceLevelData)
    (x : Int × PriceLevelData) (hx : x ∈ m) (hne : x.1 ≠ p) : x ∈ levSet m p v := by
  induction m with
  | nil => simp at hx
  | cons e t ih =>
    obtain ⟨k, w⟩ := e
    by_cases hpk : p = k
    · subst hpk
      simp only [levSet, if_pos rfl]
      rcases List.mem_cons.mp hx with h | h
      · exact absurd (congrArg Prod.fst h) hne
      · exact List.mem_cons_of_mem _ h
    · simp only [levSet, if_neg hpk]
      rcases List.mem_cons.mp hx with h | h
      · exact h ▸ List.mem_cons_self _ _
      · exact List.mem_cons_of_mem _ (ih h)

theorem self_mem_levSet (m : SMap) (p : Int) (v w : PriceLevelData)
    (h : levFind m p = some w) : (p, v) ∈ levSet m p v :=
  levFind_mem _ _ _ (levFind_levSet_self m p v w h)

theorem levFind_unique (m : SMap) (p : Int) (a b : PriceLevelData)
    (hnd : (m.map Prod.fst).Nodup) (ha : (p, a) ∈ m) (hb : (p, b) ∈ m) : a = b := by
  have h1 := mem_levFind m p a hnd ha
  have h2 := mem_levFind m p b hnd hb
  rw [h1] at h2
  exact Option.some.inj h2

theorem levelWF_mono (side : Bool) (b b' : Nat) (key : Int) (lvl : PriceLevelData)
    (hle : b ≤ b') (h : levelWF side b key lvl) : levelWF side b' key lvl := by
  obtain ⟨h1, h2, h3, h4, h5⟩ := h
  refine ⟨h1, h2, h3, h4, fun n hn => ?_⟩
  obtain ⟨a1, a2, a3, a4⟩ := h5 n hn
  exact ⟨a1, a2, a3, Nat.lt_of_lt_of_le a4 hle⟩

/-! ### Characterization of the public operations -/

theorem add_order_def (s : OrderBook) (o : Order) :
    s.add_order o =
      { bids_ := if o.is_buy then addSide bidLt s.bids_ o s.nextNode else s.bids_,
        asks_ := if o.is_buy then s.asks_ else addSide askLt s.asks_ o s.nextNode,
        order_lookup_ := lkSet s.order_lookup_ o.order_id
          { is_buy := o.is_buy, price := o.price, nodeId := s.nextNode },
        nextNode := s.nextNode + 1 } := by
  cases hb : o.is_buy
  · simp [OrderBook.add_order, hb]
  · simp [OrderBook.add_order, hb]

theorem add_sideLevels (s : OrderBook) (o : Order) (side : Bool) :
    sideLevels (s.add_order o) side =
      if side = o.is_buy then addSide (sideCmp side) (sideLevels s side) o s.nextNode
      else sideLevels s side := by
  rw [add_order_def]
  cases side
  · cases hb : o.is_buy
    · simp [sideLevels, sideCmp, hb]
    · simp [sideLevels, hb]
  · cases hb : o.is_buy
    · simp [sideLevels, hb]
    · simp [sideLevels, sideCmp, hb]

theorem add_order_lookup (s : OrderBook) (o : Order) :
    (s.add_order o).order_lookup_ = lkSet s.order_lookup_ o.order_id
      { is_buy := o.is_buy, price := o.price, nodeId := s.nextNode } := by
  rw [add_order_def]

theorem add_order_next (s : OrderBook) (o : Order) :
    (s.add_order o).nextNode = s.nextNode + 1 := by
  rw [add_order_def]

theorem addSide_eq_fresh (lt : Int → Int → Bool) (m : SMap) (o : Order) (nid : Nat)
    (h : levFind m o.price = none) :
    addSide lt m o nid = levInsert lt m o.price
      { price := o.price, orders := [{ nodeId := nid, order := o }],
        total_quantity := uadd 0 o.quantity } := by
  simp [addSide, h]

theorem addSide_eq_found (lt : Int → Int → Bool) (m : SMap) (o : Order) (nid : Nat)
    (lvl : PriceLevelData) (h : levFind m o.price = some lvl) :
    addSide lt m o nid = levInsert lt m o.price
      { price := o.price, orders := lvl.orders ++ [{ nodeId := nid, order := o }],
        total_quantity := uadd lvl.total_quantity o.quantity } := by
  simp [addSide, h]

theorem cancel_order_none (s : OrderBook) (oid : Nat)
    (h : lkFind s.order_lookup_ oid = none) : s.cancel_order oid = (false, s) := by
  simp [OrderBook.cancel_order, h]

theorem cancelSide_some (m : SMap) (loc : OrderLocation) (lvl : PriceLevelData)
    (node : OrderNode) (h1 : levFind m loc.price = some lvl)
    (h2 : findNode lvl.orders loc.nodeId = some node) :
    cancelSide m loc = some
      (if (eraseNode lvl.orders loc.nodeId).isEmpty then levErase m loc.price
       else levSet m loc.price
         { lvl with
           total_quantity := usub lvl.total_quantity node.order.quantity,
           orders := eraseNode lvl.orders loc.nodeId }) := by
  simp [cancelSide, h1, h2]

theorem cancel_order_some (s : OrderBook) (oid : Nat) (loc : OrderLocation) (m' : SMap)
    (h1 : lkFind s.order_lookup_ oid = some loc)
    (h2 : cancelSide (sideLevels s loc.is_buy) loc = some m') :
    s.cancel_order oid =
      (true,
        { bids_ := if loc.is_buy then m' else s.bids_,
          asks_ := if loc.is_buy then s.asks_ else m',
          order_lookup_ := lkErase s.order_lookup_ oid,
          nextNode := s.nextNode }) := by
  cases hb : loc.is_buy
  · simp [sideLevels, hb] at h2
    simp [OrderBook.cancel_order, h1, hb, h2]
  · simp [sideLevels, hb] at h2
    simp [OrderBook.cancel_order, h1, hb, h2]

theorem cancel_order_side_none (s : OrderBook) (oid : Nat) (loc : OrderLocation)
    (h1 : lkFind s.order_lookup_ oid = some loc)
    (h2 : cancelSide (sideLevels s loc.is_buy) loc = none) :
    s.cancel_order oid = (false, s) := by
  cases hb : loc.is_buy
  · simp [sideLevels, hb] at h2
    simp [OrderBook.cancel_order, h1, hb, h2]
  · simp [sideLevels, hb] at h2
    simp [OrderBook.cancel_order, h1, hb, h2]

theorem cancel_sideLevels (s : OrderBook) (oid : Nat) (loc : OrderLocation) (m' : SMap)
    (h1 : lkFind s.order_lookup_ oid = some loc)
    (h2 : cancelSide (sideLevels s loc.is_buy) loc = some m') (side : Bool) :
    sideLevels ((s.cancel_order oid).2) side =
      if side = loc.is_buy then m' else sideLevels s side := by
  rw [cancel_order_some s oid loc m' h1 h2]
  cases side
  · cases hb : loc.is_buy
    · simp [sideLevels, hb]
    · simp [sideLevels, hb]
  · cases hb : loc.is_buy
    · simp [sideLevels, hb]
    · simp [sideLevels, hb]

theorem amend_order_none (s : OrderBook) (oid : Nat) (np : Int) (nq : Nat)
    (h : lkFind s.order_lookup_ oid = none) : s.amend_order oid np nq = (false, s) := by
  simp [OrderBook.amend_order, h]

theorem derefLoc_some (s : OrderBook) (loc : OrderLocation) (lvl : PriceLevelData)
    (node : OrderNode) (h1 : levFind (sideLevels s loc.is_buy) loc.price = some lvl)
    (h2 : findNode lvl.orders loc.nodeId = some node) : derefLoc s loc = some node := by
  simp [derefLoc, h1, h2]

theorem amend_order_price_change (s : OrderBook) (oid : Nat) (np : Int) (nq : Nat)
    (loc : OrderLocation) (node : OrderNode)
    (h1 : lkFind s.order_lookup_ oid = some loc) (hd : derefLoc s loc = some node)
    (hne : node.order.price ≠ np) :
    s.amend_order oid np nq =
      (true, ((s.cancel_order oid).2).add_order
        { node.order with price := np, quantity := nq }) := by
  simp [OrderBook.amend_order, h1, hd, hne]

theorem amendSide_eq (m : SMap) (loc : OrderLocation) (node : OrderNode) (nq : Nat)
    (lvl : PriceLevelData) (h : levFind m loc.price = some lvl) :
    amendSide m loc node nq = some (levSet m loc.price
      { lvl with
        total_quantity := uadd (usub lvl.total_quantity node.order.quantity) nq,
        orders := setNodeQty lvl.orders loc.nodeId nq }) := by
  simp [amendSide, h]

theorem amend_order_qty (s : OrderBook) (oid : Nat) (np : Int) (nq : Nat)
    (loc : OrderLocation) (node : OrderNode) (m' : SMap)
    (h1 : lkFind s.order_lookup_ oid = some loc) (hd : derefLoc s loc = some node)
    (heq : node.order.price = np)
    (hAm : amendSide (sideLevels s loc.is_buy) loc node nq = some m') :
    s.amend_order oid np nq =
      (true,
        { bids_ := if loc.is_buy then m' else s.bids_,
          asks_ := if loc.is_buy then s.asks_ else m',
          order_lookup_ := s.order_lookup_,
          nextNode := s.nextNode }) := by
  cases hb : loc.is_buy
  · simp [sideLevels, hb] at hAm
    simp [OrderBook.amend_order, h1, hd, heq, hb, hAm]
  · simp [sideLevels, hb] at hAm
    simp [OrderBook.amend_order, h1, hd, heq, hb, hAm]

theorem amend_sideLevels_qty (s : OrderBook) (oid : Nat) (np : Int) (nq : Nat)
    (loc : OrderLocation) (node : OrderNode) (m' : SMap)
    (h1 : lkFind s.order_lookup_ oid = some loc) (hd : derefLoc s loc = some node)
    (heq : node.order.price = np)
    (hAm : amendSide (sideLevels s loc.is_buy) loc node nq = some m') (side : Bool) :
    sideLevels ((s.amend_order oid np nq).2) side =
      if side = loc.is_buy then m' else sideLevels s side := by
  rw [amend_order_qty s oid np nq loc node m' h1 hd heq hAm]
  cases side
  · cases hb : loc.is_buy
    · simp [sideLevels, hb]
    · simp [sideLevels, hb]
  · cases hb : loc.is_buy
    · simp [sideLevels, hb]
    · simp [sideLevels, hb]

/-! ### Preservation of the structural invariant -/

theorem addSide_spec (m : SMap) (o : Order) (bound : Nat) (hq : o.quantity < U64)
    (hlev : ∀ e ∈ m, levelWF o.is_buy bound e.1 e.2) :
    ∃ newlvl : PriceLevelData,
      addSide (sideCmp o.is_buy) m o bound =
        levInsert (sideCmp o.is_buy) m o.price newlvl ∧
      levelWF o.is_buy (bound + 1) o.price newlvl ∧
      ({ nodeId := bound, order := o } : OrderNode) ∈ newlvl.orders ∧
      (∀ lvl, levFind m o.price = some lvl → ∀ n ∈ lvl.orders, n ∈ newlvl.orders) ∧
      ∀ n ∈ newlvl.orders, n = { nodeId := bound, order := o } ∨
        ∃ lvl, levFind m o.price = some lvl ∧ n ∈ lvl.orders := by
  cases hfind : levFind m o.price with
  | none =>
    refine ⟨{ price := o.price, orders := [{ nodeId := bound, order := o }],
              total_quantity := uadd 0 o.quantity },
            addSide_eq_fresh _ m o bound hfind, ?_, by simp, ?_, ?_⟩
    · refine ⟨rfl, by simp, ?_, by simp, ?_⟩
      · simp [uadd, levelSum, sumQ]
      · intro n hn
        simp at hn
        subst hn
        simp [hq]
    · intro lvl hlvl
      cases hlvl
    · intro n hn
      simp at hn
      exact Or.inl hn
  | some lvl =>
    have hmem : (o.price, lvl) ∈ m := levFind_mem m o.price lvl hfind
    obtain ⟨hp, hne, htot, hnodup, hflds⟩ := hlev (o.price, lvl) hmem
    refine ⟨{ price := o.price,
              orders := lvl.orders ++ [{ nodeId := bound, order := o }],
              total_quantity := uadd lvl.total_quantity o.quantity },
            addSide_eq_found _ m o bound lvl hfind, ?_, by simp, ?_, ?_⟩
    · refine ⟨rfl, by simp, ?_, ?_, ?_⟩
      · simp only at htot ⊢
        rw [htot, uadd_mod_left]
        simp [levelSum, sumQ_append, sumQ, Nat.add_comm]
      · simp only [List.map_append, List.map_cons, List.map_nil]
        rw [List.nodup_append]
        refine ⟨hnodup, List.nodup_singleton _, ?_⟩
        intro a ha hb
        simp at hb
        subst hb
        obtain ⟨n, hn, hna⟩ := List.mem_map.mp ha
        have := (hflds n hn).2.2.2
        omega
      · intro n hn
        rcases List.mem_append.mp hn with h | h
        · obtain ⟨a1, a2, a3, a4⟩ := hflds n h
          exact ⟨a1, a2, a3, by omega⟩
        · simp at h
          subst h
          simp [hq]
    · intro lvl' hlvl' n hn
      cases hlvl'
      exact List.mem_append_left _ hn
    · intro n hn
      rcases List.mem_append.mp hn with h | h
      · exact Or.inr ⟨lvl, rfl, h⟩
      · simp at h
        exact Or.inl h

theorem add_WF (s : OrderBook) (o : Order) (hWF : WF s) (hq : o.quantity < U64) :
    WF (s.add_order o) := by
  obtain ⟨newlvl, hside, hnewWF, hnewmem, hold, hnew⟩ :=
    addSide_spec (sideLevels s o.is_buy) o s.nextNode hq (hWF.levels o.is_buy)
  have hkeysNodup : ∀ side : Bool, ((sideLevels s side).map Prod.fst).Nodup := fun side =>
    keysNodup_of_sorted (sideCmp side) (sideCmp_ne side) _ (hWF.sorted side)
  constructor
  · -- sortedness of both sides
    intro side
    rw [add_sideLevels]
    by_cases hs : side = o.is_buy
    · subst hs
      simp only [if_pos rfl]
      rw [hside]
      exact sorted_levInsert _ (sideCmp_total o.is_buy) (sideCmp_trans o.is_buy) _ _ _
        (hWF.sorted o.is_buy)
    · simp only [if_neg hs]
      exact hWF.sorted side
  · -- all levels well-formed
    intro side e he
    rw [add_order_next]
    rw [add_sideLevels] at he
    by_cases hs : side = o.is_buy
    · subst hs
      simp only [if_pos rfl] at he
      rw [hside] at he
      rcases mem_levInsert _ _ _ _ _ he with h | h
      · rw [h]
        exact hnewWF
      · exact levelWF_mono _ _ _ _ _ (Nat.le_succ _) (hWF.levels o.is_buy e h)
    · simp only [if_neg hs] at he
      exact levelWF_mono _ _ _ _ _ (Nat.le_succ _) (hWF.levels side e he)
  · -- lookup keys unique
    rw [add_order_lookup]
    exact nodup_lkSet _ _ _ hWF.lookNodup
  · -- every entry resolves
    intro kv hkv
    rw [add_order_lookup] at hkv
    rcases mem_lkSet _ _ _ hWF.lookNodup kv hkv with h | ⟨hmem, _⟩
    · -- the freshly written entry
      subst h
      refine ⟨(o.price, newlvl), ?_, rfl, ⟨{ nodeId := s.nextNode, order := o }, hnewmem,
        rfl, rfl⟩⟩
      rw [add_sideLevels]
      simp only [if_pos rfl]
      rw [hside]
      exact self_mem_levInsert _ _ _ _
    · -- a pre-existing entry
      obtain ⟨e₁, he₁, hkey, n₁, hn₁, hnid, hoid⟩ := hWF.lookRes kv hmem
      by_cases hsd : kv.2.is_buy = o.is_buy
      · by_cases hkeyp : e₁.1 = o.price
        · -- entry points into the level that just received the new node
          have he₁' : (e₁.1, e₁.2) ∈ sideLevels s o.is_buy := by
            have h' := hsd ▸ he₁
            simpa using h'
          have hfind : levFind (sideLevels s o.is_buy) o.price = some e₁.2 :=
            mem_levFind _ _ _ (hkeysNodup o.is_buy) (hkeyp ▸ he₁')
          refine ⟨(o.price, newlvl), ?_, by exact hkeyp ▸ hkey, n₁,
            hold e₁.2 hfind n₁ hn₁, hnid, hoid⟩
          rw [add_sideLevels, hsd]
          simp only [if_pos rfl]
          rw [hside]
          exact self_mem_levInsert _ _ _ _
        · refine ⟨e₁, ?_, hkey, n₁, hn₁, hnid, hoid⟩
          rw [add_sideLevels, hsd]
          simp only [if_pos rfl]
          rw [hside]
          exact mem_levInsert_of_ne _ _ _ _ _ (hsd ▸ he₁) hkeyp
      · refine ⟨e₁, ?_, hkey, n₁, hn₁, hnid, hoid⟩
        rw [add_sideLevels]
        simp only [if_neg hsd]
        exact he₁

theorem cancel_order_lookup (s : OrderBook) (oid : Nat) (loc : OrderLocation) (m' : SMap)
    (h1 : lkFind s.order_lookup_ oid = some loc)
    (h2 : cancelSide (sideLevels s loc.is_buy) loc = some m') :
    ((s.cancel_order oid).2).order_lookup_ = lkErase s.order_lookup_ oid := by
  rw [cancel_order_some s oid loc m' h1 h2]

theorem cancel_order_next (s : OrderBook) (oid : Nat) (loc : OrderLocation) (m' : SMap)
    (h1 : lkFind s.order_lookup_ oid = some loc)
    (h2 : cancelSide (sideLevels s loc.is_buy) loc = some m') :
    ((s.cancel_order oid).2).nextNode = s.nextNode := by
  rw [cancel_order_some s oid loc m' h1 h2]

theorem cancel_WF (s : OrderBook) (oid : Nat) (hWF : WF s) :
    WF ((s.cancel_order oid).2) := by
  cases h1 : lkFind s.order_lookup_ oid with
  | none =>
    rw [cancel_order_none s oid h1]
    exact hWF
  | some loc =>
    have hkeysNodup : ∀ side : Bool, ((sideLevels s side).map Prod.fst).Nodup := fun side =>
      keysNodup_of_sorted (sideCmp side) (sideCmp_ne side) _ (hWF.sorted side)
    obtain ⟨e₀, he₀, hkey₀, n₀, hn₀, hnid₀, hoid₀⟩ :=
      hWF.lookRes (oid, loc) (lkFind_mem _ _ _ h1)
    have he₀' : (e₀.1, e₀.2) ∈ sideLevels s loc.is_buy := by simpa using he₀
    have hfind : levFind (sideLevels s loc.is_buy) loc.price = some e₀.2 :=
      mem_levFind _ _ _ (hkeysNodup loc.is_buy) (hkey₀ ▸ he₀')
    obtain ⟨hp₀, hne₀, htot₀, hnodup₀, hflds₀⟩ := hWF.levels loc.is_buy e₀ he₀
    have hfn : findNode e₀.2.orders loc.nodeId = some n₀ :=
      findNode_eq_of_nodup _ _ _ hnodup₀ hn₀ hnid₀
    have hcs := cancelSide_some (sideLevels s loc.is_buy) loc e₀.2 n₀ hfind hfn
    by_cases hemp : (eraseNode e₀.2.orders loc.nodeId).isEmpty = true
    · -- the queue became empty: the level is erased from the side index
      rw [if_pos hemp] at hcs
      have hEnil : eraseNode e₀.2.orders loc.nodeId = [] := List.isEmpty_iff.mp hemp
      refine ⟨?_, ?_, ?_, ?_⟩
      · intro side
        rw [cancel_sideLevels s oid loc _ h1 hcs]
        by_cases hs : side = loc.is_buy
        · subst hs
          simp only [if_pos rfl]
          exact (hWF.sorted loc.is_buy).sublist (levErase_sublist _ _)
        · simp only [if_neg hs]
          exact hWF.sorted side
      · intro side e he
        rw [cancel_order_next s oid loc _ h1 hcs]
        rw [cancel_sideLevels s oid loc _ h1 hcs] at he
        by_cases hs : side = loc.is_buy
        · subst hs
          simp only [if_pos rfl] at he
          exact hWF.levels loc.is_buy e ((levErase_sublist _ _).subset he)
        · simp only [if_neg hs] at he
          exact hWF.levels side e he
      · rw [cancel_order_lookup s oid loc _ h1 hcs]
        exact List.Nodup.sublist (List.Sublist.map Prod.fst (lkErase_sublist _ _))
          hWF.lookNodup
      · intro kv hkv
        rw [cancel_order_lookup s oid loc _ h1 hcs] at hkv
        obtain ⟨hkvmem, hkvne⟩ := mem_lkErase_nodup _ _ hWF.lookNodup kv hkv
        obtain ⟨e₁, he₁, hkey₁, n₁, hn₁, hnid₁, hoid₁⟩ := hWF.lookRes kv hkvmem
        by_cases hsd : kv.2.is_buy = loc.is_buy
        · by_cases hkeyq : e₁.1 = loc.price
          · exfalso
            have he₁' : (e₁.1, e₁.2) ∈ sideLevels s loc.is_buy := by
              have h' := hsd ▸ he₁
              simpa using h'
            have heq : e₁.2 = e₀.2 := levFind_unique _ loc.price _ _
              (hkeysNodup loc.is_buy) (hkeyq ▸ he₁') (levFind_mem _ _ _ hfind)
            have hdiff : n₁.nodeId ≠ loc.nodeId := by
              intro hc
              have hsome := findNode_eq_of_nodup _ _ _ hnodup₀ (heq ▸ hn₁) hc
              rw [hfn] at hsome
              have hn₁₀ : n₀ = n₁ := Option.some.inj hsome
              exact hkvne (by rw [← hoid₁, ← hn₁₀, hoid₀])
            have hsurv : n₁ ∈ eraseNode e₀.2.orders loc.nodeId :=
              mem_eraseNode_of_ne _ _ _ (heq ▸ hn₁) hdiff
            rw [hEnil] at hsurv
            simp at hsurv
          · refine ⟨e₁, ?_, hkey₁, n₁, hn₁, hnid₁, hoid₁⟩
            rw [cancel_sideLevels s oid loc _ h1 hcs, hsd]
            simp only [if_pos rfl]
            exact mem_levErase_of_ne _ _ _ (hsd ▸ he₁) hkeyq
        · refine ⟨e₁, ?_, hkey₁, n₁, hn₁, hnid₁, hoid₁⟩
          rw [cancel_sideLevels s oid loc _ h1 hcs]
          simp only [if_neg hsd]
          exact he₁
    · -- the queue stays non-empty: the level is updated in place
      rw [if_neg hemp] at hcs
      have hEne : eraseNode e₀.2.orders loc.nodeId ≠ [] := by
        intro hc
        exact hemp (List.isEmpty_iff.mpr hc)
      have hq₀ : n₀.order.quantity < U64 := (hflds₀ n₀ hn₀).2.2.1
      have hle₀ : n₀.order.quantity ≤ sumQ e₀.2.orders := le_sumQ_of_mem _ _ hn₀
      have hlvl' : levelWF loc.is_buy s.nextNode loc.price
          { e₀.2 with
            total_quantity := usub e₀.2.total_quantity n₀.order.quantity,
            orders := eraseNode e₀.2.orders loc.nodeId } := by
        refine ⟨?_, hEne, ?_, ?_, ?_⟩
        · simp only
          rw [hp₀, hkey₀]
        · simp only [levelSum] at htot₀ ⊢
          rw [sumQ_eraseNode _ _ _ hfn, htot₀, usub_mod_left _ _ hle₀ hq₀]
        · simp only
          exact List.Nodup.sublist (List.Sublist.map _ (eraseNode_sublist _ _)) hnodup₀
        · intro n hn
          obtain ⟨a1, a2, a3, a4⟩ := hflds₀ n ((eraseNode_sublist _ _).subset hn)
          exact ⟨a1, by rw [a2, hkey₀], a3, a4⟩
      refine ⟨?_, ?_, ?_, ?_⟩
      · intro side
        rw [cancel_sideLevels s oid loc _ h1 hcs]
        by_cases hs : side = loc.is_buy
        · subst hs
          simp only [if_pos rfl]
          exact sorted_levSet _ _ _ _ (hWF.sorted loc.is_buy)
        · simp only [if_neg hs]
          exact hWF.sorted side
      · intro side e he
        rw [cancel_order_next s oid loc _ h1 hcs]
        rw [cancel_sideLevels s oid loc _ h1 hcs] at he
        by_cases hs : side = loc.is_buy
        · subst hs
          simp only [if_pos rfl] at he
          rcases mem_levSet _ _ _ (hkeysNodup loc.is_buy) e he with h | ⟨h, _⟩
          · rw [h]
            exact hlvl'
          · exact hWF.levels loc.is_buy e h
        · simp only [if_neg hs] at he
          exact hWF.levels side e he
      · rw [cancel_order_lookup s oid loc _ h1 hcs]
        exact List.Nodup.sublist (List.Sublist.map Prod.fst (lkErase_sublist _ _))
          hWF.lookNodup
      · intro kv hkv
        rw [cancel_order_lookup s oid loc _ h1 hcs] at hkv
        obtain ⟨hkvmem, hkvne⟩ := mem_lkErase_nodup _ _ hWF.lookNodup kv hkv
        obtain ⟨e₁, he₁, hkey₁, n₁, hn₁, hnid₁, hoid₁⟩ := hWF.lookRes kv hkvmem
        by_cases hsd : kv.2.is_buy = loc.is_buy
        · by_cases hkeyq : e₁.1 = loc.price
          · have he₁' : (e₁.1, e₁.2) ∈ sideLevels s loc.is_buy := by
              have h' := hsd ▸ he₁
              simpa using h'
            have heq : e₁.2 = e₀.2 := levFind_unique _ loc.price _ _
              (hkeysNodup loc.is_buy) (hkeyq ▸ he₁') (levFind_mem _ _ _ hfind)
            have hdiff : n₁.nodeId ≠ loc.nodeId := by
              intro hc
              have hsome := findNode_eq_of_nodup _ _ _ hnodup₀ (heq ▸ hn₁) hc
              rw [hfn] at hsome
              have hn₁₀ : n₀ = n₁ := Option.some.inj hsome
              exact hkvne (by rw [← hoid₁, ← hn₁₀, hoid₀])
            have hsurv : n₁ ∈ eraseNode e₀.2.orders loc.nodeId :=
              mem_eraseNode_of_ne _ _ _ (heq ▸ hn₁) hdiff
            refine ⟨(loc.price,
              { e₀.2 with
                total_quantity := usub e₀.2.total_quantity n₀.order.quantity,
                orders := eraseNode e₀.2.orders loc.nodeId }), ?_,
              by rw [← hkey₁, hkeyq], n₁, hsurv, hnid₁, hoid₁⟩
            rw [cancel_sideLevels s oid loc _ h1 hcs, hsd]
            simp only [if_pos rfl]
            exact self_mem_levSet _ _ _ _ hfind
          · refine ⟨e₁, ?_, hkey₁, n₁, hn₁, hnid₁, hoid₁⟩
            rw [cancel_sideLevels s oid loc _ h1 hcs, hsd]
            simp only [if_pos rfl]
            exact mem_levSet_of_ne _ _ _ _ (hsd ▸ he₁) hkeyq
        · refine ⟨e₁, ?_, hkey₁, n₁, hn₁, hnid₁, hoid₁⟩
          rw [cancel_sideLevels s oid loc _ h1 hcs]
          simp only [if_neg hsd]
          exact he₁

theorem amend_order_lookup_qty (s : OrderBook) (oid : Nat) (np : Int) (nq : Nat)
    (loc : OrderLocation) (node : OrderNode) (m' : SMap)
    (h1 : lkFind s.order_lookup_ oid = some loc) (hd : derefLoc s loc = some node)
    (heq : node.order.price = np)
    (hAm : amendSide (sideLevels s loc.is_buy) loc node nq = some m') :
    ((s.amend_order oid np nq).2).order_lookup_ = s.order_lookup_ := by
  rw [amend_order_qty s oid np nq loc node m' h1 hd heq hAm]

theorem amend_order_next_qty (s : OrderBook) (oid : Nat) (np : Int) (nq : Nat)
    (loc : OrderLocation) (node : OrderNode) (m' : SMap)
    (h1 : lkFind s.order_lookup_ oid = some loc) (hd : derefLoc s loc = some node)
    (heq : node.order.price = np)
    (hAm : amendSide (sideLevels s loc.is_buy) loc node nq = some m') :
    ((s.amend_order oid np nq).2).nextNode = s.nextNode := by
  rw [amend_order_qty s oid np nq loc node m' h1 hd heq hAm]

theorem amend_WF (s : OrderBook) (oid : Nat) (np : Int) (nq : Nat) (hWF : WF s)
    (hq : nq < U64) : WF ((s.amend_order oid np nq).2) := by
  cases h1 : lkFind s.order_lookup_ oid with
  | none =>
    rw [amend_order_none s oid np nq h1]
    exact hWF
  | some loc =>
    have hkeysNodup : ∀ side : Bool, ((sideLevels s side).map Prod.fst).Nodup := fun side =>
      keysNodup_of_sorted (sideCmp side) (sideCmp_ne side) _ (hWF.sorted side)
    obtain ⟨e₀, he₀, hkey₀, n₀, hn₀, hnid₀, hoid₀⟩ :=
      hWF.lookRes (oid, loc) (lkFind_mem _ _ _ h1)
    have he₀' : (e₀.1, e₀.2) ∈ sideLevels s loc.is_buy := by simpa using he₀
    have hfind : levFind (sideLevels s loc.is_buy) loc.price = some e₀.2 :=
      mem_levFind _ _ _ (hkeysNodup loc.is_buy) (hkey₀ ▸ he₀')
    obtain ⟨hp₀, hne₀, htot₀, hnodup₀, hflds₀⟩ := hWF.levels loc.is_buy e₀ he₀
    have hfn : findNode e₀.2.orders loc.nodeId = some n₀ :=
      findNode_eq_of_nodup _ _ _ hnodup₀ hn₀ hnid₀
    have hd : derefLoc s loc = some n₀ := derefLoc_some s loc e₀.2 n₀ hfind hfn
    by_cases hnep : n₀.order.price ≠ np
    · rw [amend_order_price_change s oid np nq loc n₀ h1 hd hnep]
      exact add_WF _ _ (cancel_WF s oid hWF) hq
    · have heqp : n₀.order.price = np := not_not.mp hnep
      have hAm := amendSide_eq (sideLevels s loc.is_buy) loc n₀ nq e₀.2 hfind
      have hq₀ : n₀.order.quantity < U64 := (hflds₀ n₀ hn₀).2.2.1
      have hle₀ : n₀.order.quantity ≤ sumQ e₀.2.orders := le_sumQ_of_mem _ _ hn₀
      have hlvl2 : levelWF loc.is_buy s.nextNode loc.price
          { e₀.2 with
            total_quantity := uadd (usub e₀.2.total_quantity n₀.order.quantity) nq,
            orders := setNodeQty e₀.2.orders loc.nodeId nq } := by
        refine ⟨?_, setNodeQty_ne_nil _ _ _ hne₀, ?_, ?_, ?_⟩
        · simp only
          rw [hp₀, hkey₀]
        · simp only [levelSum] at htot₀ ⊢
          rw [sumQ_setNodeQty _ _ _ _ hfn, htot₀,
            uadd_usub_amend _ _ _ hle₀ hq₀]
        · simp only
          rw [map_nodeId_setNodeQty]
          exact hnodup₀
        · intro n hn
          rcases mem_setNodeQty _ _ _ n hn with ⟨y, hy, hyid, hyeq⟩ | h
          · obtain ⟨a1, a2, a3, a4⟩ := hflds₀ y hy
            subst hyeq
            exact ⟨a1, by rw [a2, hkey₀], hq, a4⟩
          · obtain ⟨a1, a2, a3, a4⟩ := hflds₀ n h
            exact ⟨a1, by rw [a2, hkey₀], a3, a4⟩
      refine ⟨?_, ?_, ?_, ?_⟩
      · intro side
        rw [amend_sideLevels_qty s oid np nq loc n₀ _ h1 hd heqp hAm]
        by_cases hs : side = loc.is_buy
        · subst hs
          simp only [if_pos rfl]
          exact sorted_levSet _ _ _ _ (hWF.sorted loc.is_buy)
        · simp only [if_neg hs]
          exact hWF.sorted side
      · intro side e he
        rw [amend_order_next_qty s oid np nq loc n₀ _ h1 hd heqp hAm]
        rw [amend_sideLevels_qty s oid np nq loc n₀ _ h1 hd heqp hAm] at he
        by_cases hs : side = loc.is_buy
        · subst hs
          simp only [if_pos rfl] at he
          rcases mem_levSet _ _ _ (hkeysNodup loc.is_buy) e he with h | ⟨h, _⟩
          · rw [h]
            exact hlvl2
          · exact hWF.levels loc.is_buy e h
        · simp only [if_neg hs] at he
          exact hWF.levels side e he
      · rw [amend_order_lookup_qty s oid np nq loc n₀ _ h1 hd heqp hAm]
        exact hWF.lookNodup
      · intro kv hkv
        rw [amend_order_lookup_qty s oid np nq loc n₀ _ h1 hd heqp hAm] at hkv
        obtain ⟨e₁, he₁, hkey₁, n₁, hn₁, hnid₁, hoid₁⟩ := hWF.lookRes kv hkv
        by_cases hsd : kv.2.is_buy = loc.is_buy
        · by_cases hkeyq : e₁.1 = loc.price
          · have he₁' : (e₁.1, e₁.2) ∈ sideLevels s loc.is_buy := by
              have h' := hsd ▸ he₁
              simpa using h'
            have heq : e₁.2 = e₀.2 := levFind_unique _ loc.price _ _
              (hkeysNodup loc.is_buy) (hkeyq ▸ he₁') (levFind_mem _ _ _ hfind)
            by_cases hdn : n₁.nodeId = loc.nodeId
            · -- the amended node itself
              have hsome := findNode_eq_of_nodup _ _ _ hnodup₀ (heq ▸ hn₁) hdn
              rw [hfn] at hsome
              have hn₁₀ : n₀ = n₁ := Option.some.inj hsome
              have hupd := findNode_setNodeQty_self e₀.2.orders loc.nodeId nq n₀ hfn
              refine ⟨(loc.price,
                { e₀.2 with
                  total_quantity := uadd (usub e₀.2.total_quantity n₀.order.quantity) nq,
                  orders := setNodeQty e₀.2.orders loc.nodeId nq }), ?_,
                by rw [← hkey₁, hkeyq],
                { n₀ with order := { n₀.order with quantity := nq } },
                (findNode_mem _ _ _ hupd).1, ?_, ?_⟩
              · rw [amend_sideLevels_qty s oid np nq loc n₀ _ h1 hd heqp hAm, hsd]
                simp only [if_pos rfl]
                exact self_mem_levSet _ _ _ _ hfind
              · simp only
                rw [← hnid₁, hn₁₀]
              · simp only
                rw [← hoid₁, hn₁₀]
            · refine ⟨(loc.price,
                { e₀.2 with
                  total_quantity := uadd (usub e₀.2.total_quantity n₀.order.quantity) nq,
                  orders := setNodeQty e₀.2.orders loc.nodeId nq }), ?_,
                by rw [← hkey₁, hkeyq], n₁,
                mem_setNodeQty_of_ne _ _ _ _ (heq ▸ hn₁) hdn, hnid₁, hoid₁⟩
              rw [amend_sideLevels_qty s oid np nq loc n₀ _ h1 hd heqp hAm, hsd]
              simp only [if_pos rfl]
              exact self_mem_levSet _ _ _ _ hfind
          · refine ⟨e₁, ?_, hkey₁, n₁, hn₁, hnid₁, hoid₁⟩
            rw [amend_sideLevels_qty s oid np nq loc n₀ _ h1 hd heqp hAm, hsd]
            simp only [if_pos rfl]
            exact mem_levSet_of_ne _ _ _ _ (hsd ▸ he₁) hkeyq
        · refine ⟨e₁, ?_, hkey₁, n₁, hn₁, hnid₁, hoid₁⟩
          rw [amend_sideLevels_qty s oid np nq loc n₀ _ h1 hd heqp hAm]
          simp only [if_neg hsd]
          exact he₁

/-- Every state reachable by arbitrary sequences of public calls is
structurally coherent. -/
theorem reach_WF (s : OrderBook) (h : Reach s) : WF s := by
  induction h with
  | empty =>
    refine ⟨?_, ?_, ?_, ?_⟩ <;> intros <;> simp_all [emptyBook, sideLevels]
  | add s o hr hq ih => exact add_WF s o ih hq
  | cancel s oid hr ih => exact cancel_WF s oid ih
  | amend s oid np nq hr hq ih => exact amend_WF s oid np nq ih hq
  | snap s d hr ih => exact ih

theorem not_mem_levErase_self (m : SMap) (p : Int) (hnd : (m.map Prod.fst).Nodup)
    (v : PriceLevelData) : (p, v) ∉ levErase m p := by
  induction m with
  | nil => simp [levErase]
  | cons e t ih =>
    obtain ⟨k, w⟩ := e
    simp only [List.map_cons, List.nodup_cons] at hnd
    by_cases hpk : p = k
    · subst hpk
      simp only [levErase, if_pos rfl]
      intro hc
      exact hnd.1 (List.mem_map.mpr ⟨(p, v), hc, rfl⟩)
    · simp only [levErase, if_neg hpk]
      intro hc
      rcases List.mem_cons.mp hc with h | h
      · exact hpk (congrArg Prod.fst h)
      · exact ih hnd.2 h

theorem nodeId_ne_of_mem_eraseNode (l : List OrderNode) (nid : Nat)
    (hnd : (l.map OrderNode.nodeId).Nodup) (n : OrderNode)
    (hn : n ∈ eraseNode l nid) : n.nodeId ≠ nid := by
  induction l with
  | nil => simp [eraseNode] at hn
  | cons x t ih =>
    simp only [List.map_cons, List.nodup_cons] at hnd
    by_cases hx : x.nodeId = nid
    · simp only [eraseNode, if_pos hx] at hn
      intro hc
      exact hnd.1 (hx ▸ hc ▸ List.mem_map.mpr ⟨n, hn, rfl⟩)
    · simp only [eraseNode, if_neg hx] at hn
      rcases List.mem_cons.mp hn with h | h
      · exact h ▸ hx
      · exact ih hnd.2 h

theorem mem_levSet_weak (m : SMap) (p : Int) (v : PriceLevelData)
    (x : Int × PriceLevelData) (hx : x ∈ levSet m p v) : x = (p, v) ∨ x ∈ m := by
  induction m with
  | nil => simp [levSet] at hx
  | cons e t ih =>
    obtain ⟨k, w⟩ := e
    by_cases hpk : p = k
    · simp only [levSet, if_pos hpk] at hx
      rcases List.mem_cons.mp hx with h | h
      · exact Or.inl h
      · exact Or.inr (List.mem_cons_of_mem _ h)
    · simp only [levSet, if_neg hpk] at hx
      rcases List.mem_cons.mp hx with h | h
      · exact Or.inr (h ▸ List.mem_cons_self _ _)
      · rcases ih h with h' | h'
        · exact Or.inl h'
        · exact Or.inr (List.mem_cons_of_mem _ h')

theorem add_nodesBack (s : OrderBook) (o : Order) (hWF : WF s) (hnb : nodesBack s)
    (hq : o.quantity < U64)
    (hfresh : lkFind s.order_lookup_ o.order_id = none) :
    nodesBack (s.add_order o) := by
  obtain ⟨newlvl, hside, hnewWF, hnewmem, hold, hnew⟩ :=
    addSide_spec (sideLevels s o.is_buy) o s.nextNode hq (hWF.levels o.is_buy)
  have hDiffId : ∀ side : Bool, ∀ e ∈ sideLevels s side, ∀ n ∈ e.2.orders,
      n.order.order_id ≠ o.order_id := by
    intro side e he n hn hc
    have h := hnb side e he n hn
    rw [hc, hfresh] at h
    cases h
  intro side e he n hn
  rw [add_order_lookup]
  rw [add_sideLevels] at he
  by_cases hs : side = o.is_buy
  · subst hs
    simp only [if_pos rfl] at he
    rw [hside] at he
    rcases mem_levInsert _ _ _ _ _ he with hE | hE
    · have he1 : e.1 = o.price := by rw [hE]
      have he2 : e.2 = newlvl := by rw [hE]
      rw [he2] at hn
      rcases hnew n hn with hNew | ⟨lvl, hlvlfind, hnlvl⟩
      · subst hNew
        rw [he1]
        exact lkFind_lkSet_self _ _ _
      · have hmemlvl : (o.price, lvl) ∈ sideLevels s o.is_buy :=
          levFind_mem _ _ _ hlvlfind
        have hb := hnb o.is_buy (o.price, lvl) hmemlvl n hnlvl
        have hne' : n.order.order_id ≠ o.order_id := hDiffId o.is_buy _ hmemlvl n hnlvl
        rw [lkFind_lkSet_ne _ _ _ _ hne', he1]
        exact hb
    · have hb := hnb o.is_buy e hE n hn
      have hne' : n.order.order_id ≠ o.order_id := hDiffId o.is_buy e hE n hn
      rw [lkFind_lkSet_ne _ _ _ _ hne']
      exact hb
  · simp only [if_neg hs] at he
    have hb := hnb side e he n hn
    have hne' : n.order.order_id ≠ o.order_id := hDiffId side e he n hn
    rw [lkFind_lkSet_ne _ _ _ _ hne']
    exact hb

theorem cancel_nodesBack (s : OrderBook) (oid : Nat) (hWF : WF s) (hnb : nodesBack s) :
    nodesBack ((s.cancel_order oid).2) := by
  cases h1 : lkFind s.order_lookup_ oid with
  | none =>
    rw [cancel_order_none s oid h1]
    exact hnb
  | some loc =>
    have hkeysNodup : ∀ side : Bool, ((sideLevels s side).map Prod.fst).Nodup := fun side =>
      keysNodup_of_sorted (sideCmp side) (sideCmp_ne side) _ (hWF.sorted side)
    obtain ⟨e₀, he₀, hkey₀, n₀, hn₀, hnid₀, hoid₀⟩ :=
      hWF.lookRes (oid, loc) (lkFind_mem _ _ _ h1)
    have he₀' : (e₀.1, e₀.2) ∈ sideLevels s loc.is_buy := by simpa using he₀
    have hfind : levFind (sideLevels s loc.is_buy) loc.price = some e₀.2 :=
      mem_levFind _ _ _ (hkeysNodup loc.is_buy) (hkey₀ ▸ he₀')
    obtain ⟨hp₀, hne₀, htot₀, hnodup₀, hflds₀⟩ := hWF.levels loc.is_buy e₀ he₀
    have hfn : findNode e₀.2.orders loc.nodeId = some n₀ :=
      findNode_eq_of_nodup _ _ _ hnodup₀ hn₀ hnid₀
    have hcs := cancelSide_some (sideLevels s loc.is_buy) loc e₀.2 n₀ hfind hfn
    -- two facts for every surviving node: its old lookup fact, plus id ≠ oid
    have hFinish : ∀ side : Bool, ∀ e : Int × PriceLevelData, ∀ n ∈ e.2.orders,
        lkFind s.order_lookup_ n.order.order_id =
          some { is_buy := side, price := e.1, nodeId := n.nodeId } →
        n.order.order_id ≠ oid →
        lkFind ((s.cancel_order oid).2).order_lookup_ n.order.order_id =
          some { is_buy := side, price := e.1, nodeId := n.nodeId } := by
      intro side e n _ hOld hneid
      rw [cancel_order_lookup s oid loc _ h1 hcs, lkFind_lkErase_ne _ _ _ hneid]
      exact hOld
    have hLocEq : ∀ side : Bool, ∀ e : Int × PriceLevelData, ∀ n : OrderNode,
        lkFind s.order_lookup_ n.order.order_id =
          some { is_buy := side, price := e.1, nodeId := n.nodeId } →
        n.order.order_id = oid →
        loc = { is_buy := side, price := e.1, nodeId := n.nodeId } := by
      intro side e n hOld hc
      rw [hc, h1] at hOld
      exact Option.some.inj hOld
    by_cases hemp : (eraseNode e₀.2.orders loc.nodeId).isEmpty = true
    · rw [if_pos hemp] at hcs
      intro side e he n hn
      rw [cancel_sideLevels s oid loc _ h1 hcs] at he
      by_cases hs : side = loc.is_buy
      · subst hs
        simp only [if_pos rfl] at he
        have heS : e ∈ sideLevels s loc.is_buy := (levErase_sublist _ _).subset he
        have hOld := hnb loc.is_buy e heS n hn
        refine hFinish loc.is_buy e n hn hOld ?_
        intro hc
        have hloceq := hLocEq loc.is_buy e n hOld hc
        have hkeyeq : e.1 = loc.price := by rw [hloceq]
        have : (loc.price, e.2) ∈ levErase (sideLevels s loc.is_buy) loc.price := by
          have h' : (e.1, e.2) ∈ levErase (sideLevels s loc.is_buy) loc.price := by
            simpa using he
          rw [hkeyeq] at h'
          exact h'
        exact not_mem_levErase_self _ _ (hkeysNodup loc.is_buy) _ this
      · simp only [if_neg hs] at he
        have hOld := hnb side e he n hn
        refine hFinish side e n hn hOld ?_
        intro hc
        have hloceq := hLocEq side e n hOld hc
        exact hs (by rw [hloceq])
    · rw [if_neg hemp] at hcs
      intro side e he n hn
      rw [cancel_sideLevels s oid loc _ h1 hcs] at he
      by_cases hs : side = loc.is_buy
      · subst hs
        simp only [if_pos rfl] at he
        rcases mem_levSet _ _ _ (hkeysNodup loc.is_buy) e he with hE | ⟨hE, hEne⟩
        · -- the updated level at loc.price
          have he1 : e.1 = loc.price := by rw [hE]
          have he2 : e.2 = { e₀.2 with
              total_quantity := usub e₀.2.total_quantity n₀.order.quantity,
              orders := eraseNode e₀.2.orders loc.nodeId } := by rw [hE]
          have hnE : n ∈ eraseNode e₀.2.orders loc.nodeId := by
            rw [he2] at hn
            exact hn
          have hnOldMem : n ∈ e₀.2.orders := (eraseNode_sublist _ _).subset hnE
          have hOld₀ := hnb loc.is_buy e₀ he₀ n hnOldMem
          have hOld : lkFind s.order_lookup_ n.order.order_id =
              some { is_buy := loc.is_buy, price := e.1, nodeId := n.nodeId } := by
            rw [he1, ← hkey₀]
            exact hOld₀
          refine hFinish loc.is_buy e n hn hOld ?_
          intro hc
          have hloceq := hLocEq loc.is_buy e n hOld hc
          have : n.nodeId ≠ loc.nodeId :=
            nodeId_ne_of_mem_eraseNode _ _ hnodup₀ n hnE
          exact this (by rw [hloceq])
        · have hOld := hnb loc.is_buy e hE n hn
          refine hFinish loc.is_buy e n hn hOld ?_
          intro hc
          have hloceq := hLocEq loc.is_buy e n hOld hc
          exact hEne (by rw [hloceq])
      · simp only [if_neg hs] at he
        have hOld := hnb side e he n hn
        refine hFinish side e n hn hOld ?_
        intro hc
        have hloceq := hLocEq side e n hOld hc
        exact hs (by rw [hloceq])

theorem amend_nodesBack (s : OrderBook) (oid : Nat) (np : Int) (nq : Nat)
    (hWF : WF s) (hnb : nodesBack s) (hq : nq < U64) :
    nodesBack ((s.amend_order oid np nq).2) := by
  cases h1 : lkFind s.order_lookup_ oid with
  | none =>
    rw [amend_order_none s oid np nq h1]
    exact hnb
  | some loc =>
    have hkeysNodup : ∀ side : Bool, ((sideLevels s side).map Prod.fst).Nodup := fun side =>
      keysNodup_of_sorted (sideCmp side) (sideCmp_ne side) _ (hWF.sorted side)
    obtain ⟨e₀, he₀, hkey₀, n₀, hn₀, hnid₀, hoid₀⟩ :=
      hWF.lookRes (oid, loc) (lkFind_mem _ _ _ h1)
    have he₀' : (e₀.1, e₀.2) ∈ sideLevels s loc.is_buy := by simpa using he₀
    have hfind : levFind (sideLevels s loc.is_buy) loc.price = some e₀.2 :=
      mem_levFind _ _ _ (hkeysNodup loc.is_buy) (hkey₀ ▸ he₀')
    obtain ⟨hp₀, hne₀, htot₀, hnodup₀, hflds₀⟩ := hWF.levels loc.is_buy e₀ he₀
    have hfn : findNode e₀.2.orders loc.nodeId = some n₀ :=
      findNode_eq_of_nodup _ _ _ hnodup₀ hn₀ hnid₀
    have hd : derefLoc s loc = some n₀ := derefLoc_some s loc e₀.2 n₀ hfind hfn
    by_cases hnep : n₀.order.price ≠ np
    · rw [amend_order_price_change s oid np nq loc n₀ h1 hd hnep]
      have hcs := cancelSide_some (sideLevels s loc.is_buy) loc e₀.2 n₀ hfind hfn
      refine add_nodesBack _ _ (cancel_WF s oid hWF) (cancel_nodesBack s oid hWF hnb)
        hq ?_
      rw [cancel_order_lookup s oid loc _ h1 hcs]
      have hgoal : lkFind (lkErase s.order_lookup_ oid) n₀.order.order_id = none := by
        rw [hoid₀]
        exact lkFind_lkErase_self _ _ hWF.lookNodup
      exact hgoal
    · have heqp : n₀.order.price = np := not_not.mp hnep
      have hAm := amendSide_eq (sideLevels s loc.is_buy) loc n₀ nq e₀.2 hfind
      intro side e he n hn
      rw [amend_order_lookup_qty s oid np nq loc n₀ _ h1 hd heqp hAm]
      rw [amend_sideLevels_qty s oid np nq loc n₀ _ h1 hd heqp hAm] at he
      by_cases hs : side = loc.is_buy
      · subst hs
        simp only [if_pos rfl] at he
        rcases mem_levSet _ _ _ (hkeysNodup loc.is_buy) e he with hE | ⟨hE, _⟩
        · have he1 : e.1 = loc.price := by rw [hE]
          have he2 : e.2 = { e₀.2 with
              total_quantity := uadd (usub e₀.2.total_quantity n₀.order.quantity) nq,
              orders := setNodeQty e₀.2.orders loc.nodeId nq } := by rw [hE]
          rw [he2] at hn
          rcases mem_setNodeQty _ _ _ n hn with ⟨y, hy, _, hyeq⟩ | hOldm
          · have hb := hnb loc.is_buy e₀ he₀ y hy
            subst hyeq
            rw [he1, ← hkey₀]
            exact hb
          · have hb := hnb loc.is_buy e₀ he₀ n hOldm
            rw [he1, ← hkey₀]
            exact hb
        · have hb := hnb loc.is_buy e hE n hn
          exact hb
      · simp only [if_neg hs] at he
        exact hnb side e he n hn

theorem emptyBook_WF : WF emptyBook := by
  refine ⟨?_, ?_, ?_, ?_⟩ <;> intros <;> simp_all [emptyBook, sideLevels]

theorem emptyBook_nodesBack : nodesBack emptyBook := by
  intro side e he
  cases side <;> simp [emptyBook, sideLevels] at he

/-- Every state reachable under the fresh-id precondition is coherent and every
live node is pointed back at by its id's unique lookup entry. -/
theorem reachFresh_WF_nodesBack (s : OrderBook) (h : ReachFresh s) :
    WF s ∧ nodesBack s := by
  induction h with
  | empty => exact ⟨emptyBook_WF, emptyBook_nodesBack⟩
  | add s o hr hq hfresh ih =>
    exact ⟨add_WF s o ih.1 hq, add_nodesBack s o ih.1 ih.2 hq hfresh⟩
  | cancel s oid hr ih =>
    exact ⟨cancel_WF s oid ih.1, cancel_nodesBack s oid ih.1 ih.2⟩
  | amend s oid np nq hr hq ih =>
    exact ⟨amend_WF s oid np nq ih.1 hq, amend_nodesBack s oid np nq ih.1 ih.2 hq⟩
  | snap s d hr ih => exact ih

theorem amend_order_deref_none (s : OrderBook) (oid : Nat) (np : Int) (nq : Nat)
    (loc : OrderLocation) (h1 : lkFind s.order_lookup_ oid = some loc)
    (hd : derefLoc s loc = none) : s.amend_order oid np nq = (false, s) := by
  simp [OrderBook.amend_order, h1, hd]

theorem amend_order_qty_none (s : OrderBook) (oid : Nat) (np : Int) (nq : Nat)
    (loc : OrderLocation) (node : OrderNode)
    (h1 : lkFind s.order_lookup_ oid = some loc) (hd : derefLoc s loc = some node)
    (heq : node.order.price = np)
    (hAm : amendSide (sideLevels s loc.is_buy) loc node nq = none) :
    s.amend_order oid np nq = (false, s) := by
  cases hb : loc.is_buy
  · simp [sideLevels, hb] at hAm
    simp [OrderBook.amend_order, h1, hd, heq, hb, hAm]
  · simp [sideLevels, hb] at hAm
    simp [OrderBook.amend_order, h1, hd, heq, hb, hAm]

theorem addSide_nodes (lt : Int → Int → Bool) (m : SMap) (o : Order) (nid : Nat)
    (e : Int × PriceLevelData) (he : e ∈ addSide lt m o nid) (n : OrderNode)
    (hn : n ∈ e.2.orders) : (∃ e₁ ∈ m, n ∈ e₁.2.orders) ∨ n.order = o := by
  cases hfind : levFind m o.price with
  | none =>
    rw [addSide_eq_fresh lt m o nid hfind] at he
    rcases mem_levInsert _ _ _ _ _ he with h | h
    · have hn' : n ∈ ({ nodeId := nid, order := o } : OrderNode) :: [] := by
        rw [h] at hn
        exact hn
      simp at hn'
      exact Or.inr (by rw [hn'])
    · exact Or.inl ⟨e, h, hn⟩
  | some lvl =>
    rw [addSide_eq_found lt m o nid lvl hfind] at he
    rcases mem_levInsert _ _ _ _ _ he with h | h
    · have hn' : n ∈ lvl.orders ++ [{ nodeId := nid, order := o }] := by
        rw [h] at hn
        exact hn
      rcases List.mem_append.mp hn' with h' | h'
      · exact Or.inl ⟨(o.price, lvl), levFind_mem _ _ _ hfind, h'⟩
      · simp at h'
        exact Or.inr (by rw [h'])
    · exact Or.inl ⟨e, h, hn⟩

theorem cancelSide_nodes (m : SMap) (loc : OrderLocation) (m' : SMap)
    (h : cancelSide m loc = some m') (e : Int × PriceLevelData) (he : e ∈ m')
    (n : OrderNode) (hn : n ∈ e.2.orders) : ∃ e₁ ∈ m, n ∈ e₁.2.orders := by
  cases hfind : levFind m loc.price with
  | none => simp [cancelSide, hfind] at h
  | some lvl =>
    cases hfn : findNode lvl.orders loc.nodeId with
    | none => simp [cancelSide, hfind, hfn] at h
    | some node =>
      have hcs := cancelSide_some m loc lvl node hfind hfn
      rw [h] at hcs
      have hm' := Option.some.inj hcs
      by_cases hemp : (eraseNode lvl.orders loc.nodeId).isEmpty = true
      · rw [if_pos hemp] at hm'
        rw [hm'] at he
        exact ⟨e, (levErase_sublist _ _).subset he, hn⟩
      · rw [if_neg hemp] at hm'
        rw [hm'] at he
        rcases mem_levSet_weak _ _ _ e he with hE | hE
        · have hn' : n ∈ eraseNode lvl.orders loc.nodeId := by
            rw [hE] at hn
            exact hn
          exact ⟨(loc.price, lvl), levFind_mem _ _ _ hfind,
            (eraseNode_sublist _ _).subset hn'⟩
        · exact ⟨e, hE, hn⟩

theorem amendSide_nodes (m : SMap) (loc : OrderLocation) (node : OrderNode) (nq : Nat)
    (m' : SMap) (h : amendSide m loc node nq = some m') (e : Int × PriceLevelData)
    (he : e ∈ m') (n : OrderNode) (hn : n ∈ e.2.orders) :
    (∃ e₁ ∈ m, n ∈ e₁.2.orders) ∨ n.order.quantity = nq := by
  cases hfind : levFind m loc.price with
  | none => simp [amendSide, hfind] at h
  | some lvl =>
    have hAm := amendSide_eq m loc node nq lvl hfind
    rw [h] at hAm
    have hm' := Option.some.inj hAm
    rw [hm'] at he
    rcases mem_levSet_weak _ _ _ e he with hE | hE
    · have hn' : n ∈ setNodeQty lvl.orders loc.nodeId nq := by
        rw [hE] at hn
        exact hn
      rcases mem_setNodeQty _ _ _ n hn' with ⟨y, hy, _, hyeq⟩ | hOld
      · exact Or.inr (by rw [hyeq])
      · exact Or.inl ⟨(loc.price, lvl), levFind_mem _ _ _ hfind, hOld⟩
    · exact Or.inl ⟨e, hE, hn⟩

theorem add_posQ (s : OrderBook) (o : Order) (hpos : PosQ s) (hq : 0 < o.quantity) :
    PosQ (s.add_order o) := by
  intro side e he n hn
  rw [add_sideLevels] at he
  by_cases hs : side = o.is_buy
  · subst hs
    simp only [if_pos rfl] at he
    rcases addSide_nodes _ _ _ _ e he n hn with ⟨e₁, he₁, hn₁⟩ | hno
    · exact hpos o.is_buy e₁ he₁ n hn₁
    · rw [hno]
      exact hq
  · simp only [if_neg hs] at he
    exact hpos side e he n hn

theorem cancel_posQ (s : OrderBook) (oid : Nat) (hpos : PosQ s) :
    PosQ ((s.cancel_order oid).2) := by
  cases h1 : lkFind s.order_lookup_ oid with
  | none =>
    rw [cancel_order_none s oid h1]
    exact hpos
  | some loc =>
    cases h2 : cancelSide (sideLevels s loc.is_buy) loc with
    | none =>
      rw [cancel_order_side_none s oid loc h1 h2]
      exact hpos
    | some m' =>
      intro side e he n hn
      rw [cancel_sideLevels s oid loc m' h1 h2] at he
      by_cases hs : side = loc.is_buy
      · subst hs
        simp only [if_pos rfl] at he
        obtain ⟨e₁, he₁, hn₁⟩ := cancelSide_nodes _ _ _ h2 e he n hn
        exact hpos loc.is_buy e₁ he₁ n hn₁
      · simp only [if_neg hs] at he
        exact hpos side e he n hn

theorem amend_posQ (s : OrderBook) (oid : Nat) (np : Int) (nq : Nat) (hpos : PosQ s)
    (hq : 0 < nq) : PosQ ((s.amend_order oid np nq).2) := by
  cases h1 : lkFind s.order_lookup_ oid with
  | none =>
    rw [amend_order_none s oid np nq h1]
    exact hpos
  | some loc =>
    cases hd : derefLoc s loc with
    | none =>
      rw [amend_order_deref_none s oid np nq loc h1 hd]
      exact hpos
    | some node =>
      by_cases hnep : node.order.price ≠ np
      · rw [amend_order_price_change s oid np nq loc node h1 hd hnep]
        exact add_posQ _ _ (cancel_posQ s oid hpos) hq
      · have heqp : node.order.price = np := not_not.mp hnep
        cases hAm : amendSide (sideLevels s loc.is_buy) loc node nq with
        | none =>
          rw [amend_order_qty_none s oid np nq loc node h1 hd heqp hAm]
          exact hpos
        | some m' =>
          intro side e he n hn
          rw [amend_sideLevels_qty s oid np nq loc node m' h1 hd heqp hAm] at he
          by_cases hs : side = loc.is_buy
          · subst hs
            simp only [if_pos rfl] at he
            rcases amendSide_nodes _ _ _ _ _ hAm e he n hn with ⟨e₁, he₁, hn₁⟩ | hq'
            · exact hpos loc.is_buy e₁ he₁ n hn₁
            · rw [hq']
              exact hq
          · simp only [if_neg hs] at he
            exact hpos side e he n hn

theorem reachPos_posQ (s : OrderBook) (h : ReachPos s) : PosQ s := by
  induction h with
  | empty =>
    intro side e he
    cases side <;> simp [emptyBook, sideLevels] at he
  | add s o hr hq0 hq ih => exact add_posQ s o ih hq0
  | cancel s oid hr ih => exact cancel_posQ s oid ih
  | amend s oid np nq hr hq0 hq ih => exact amend_posQ s oid np nq ih hq0
  | snap s d hr ih => exact ih

theorem reachPos_reach (s : OrderBook) (h : ReachPos s) : Reach s := by
  induction h with
  | empty => exact Reach.empty
  | add s o hr hq0 hq ih => exact Reach.add s o ih hq
  | cancel s oid hr ih => exact Reach.cancel s oid ih
  | amend s oid np nq hr hq0 hq ih => exact Reach.amend s oid np nq ih hq
  | snap s d hr ih => exact Reach.snap s d ih

theorem reachFresh_reach (s : OrderBook) (h : ReachFresh s) : Reach s := by
  induction h with
  | empty => exact Reach.empty
  | add s o hr hq hfresh ih => exact Reach.add s o ih hq
  | cancel s oid hr ih => exact Reach.cancel s oid ih
  | amend s oid np nq hr hq ih => exact Reach.amend s oid np nq ih hq
  | snap s d hr ih => exact Reach.snap s d ih

/-! ### Snapshot lemmas -/

theorem snapTake_eq (d : Nat) (m : SMap) :
    snapTake d m = (m.take d).map
      (fun e => { price := e.1, total_quantity := e.2.total_quantity }) := by
  induction d generalizing m with
  | zero => cases m <;> simp [snapTake]
  | succ d ih =>
    cases m with
    | nil => simp [snapTake]
    | cons e t =>
      obtain ⟨p, lvl⟩ := e
      simp [snapTake, ih]

theorem get_snapshot_eq (b : OrderBook) (d : Nat) :
    b.get_snapshot d =
      ((b.bids_.take d).map (fun e => { price := e.1, total_quantity := e.2.total_quantity }),
       (b.asks_.take d).map (fun e => { price := e.1, total_quantity := e.2.total_quantity })) := by
  simp [OrderBook.get_snapshot, snapTake_eq]

theorem length_snapTake (d : Nat) (m : SMap) :
    (snapTake d m).length = min d m.length := by
  rw [snapTake_eq]
  simp

/-! ### Add followed by cancel of the same id restores the side indices -/

theorem addCancel_restore (s : OrderBook) (o : Order) (hWF : WF s)
    (hq : o.quantity < U64) :
    ((s.add_order o).cancel_order o.order_id).1 = true ∧
    ((s.add_order o).cancel_order o.order_id).2.bids_ = s.bids_ ∧
    ((s.add_order o).cancel_order o.order_id).2.asks_ = s.asks_ ∧
    ((s.add_order o).cancel_order o.order_id).2.order_lookup_ =
      lkErase (lkSet s.order_lookup_ o.order_id
        { is_buy := o.is_buy, price := o.price, nodeId := s.nextNode }) o.order_id := by
  have hlk : lkFind (s.add_order o).order_lookup_ o.order_id =
      some { is_buy := o.is_buy, price := o.price, nodeId := s.nextNode } := by
    rw [add_order_lookup]
    exact lkFind_lkSet_self _ _ _
  have hms : sideLevels (s.add_order o) o.is_buy =
      addSide (sideCmp o.is_buy) (sideLevels s o.is_buy) o s.nextNode := by
    rw [add_sideLevels]
    simp
  have hcs : cancelSide (sideLevels (s.add_order o) o.is_buy)
      { is_buy := o.is_buy, price := o.price, nodeId := s.nextNode } =
      some (sideLevels s o.is_buy) := by
    rw [hms]
    cases hfind : levFind (sideLevels s o.is_buy) o.price with
    | none =>
      rw [addSide_eq_fresh _ _ _ _ hfind]
      have h1 := levFind_levInsert_self (sideCmp o.is_buy) (sideLevels s o.is_buy) o.price
        { price := o.price, orders := [{ nodeId := s.nextNode, order := o }],
          total_quantity := uadd 0 o.quantity }
      have h2 : findNode [{ nodeId := s.nextNode, order := o }] s.nextNode =
          some { nodeId := s.nextNode, order := o } := by
        simp [findNode]
      rw [cancelSide_some _ _ _ _ h1 h2]
      simp [eraseNode, levErase_levInsert_fresh _ _ _ _ hfind]
    | some lvl =>
      obtain ⟨hp, hne, htot, hnodup, hflds⟩ := hWF.levels o.is_buy (o.price, lvl)
        (levFind_mem _ _ _ hfind)
      rw [addSide_eq_found _ _ _ _ lvl hfind]
      have h1 := levFind_levInsert_self (sideCmp o.is_buy) (sideLevels s o.is_buy) o.price
        { price := o.price, orders := lvl.orders ++ [{ nodeId := s.nextNode, order := o }],
          total_quantity := uadd lvl.total_quantity o.quantity }
      have hfreshids : ∀ n ∈ lvl.orders, n.nodeId ≠ s.nextNode := by
        intro n hn
        have := (hflds n hn).2.2.2
        omega
      have h2 : findNode (lvl.orders ++ [{ nodeId := s.nextNode, order := o }]) s.nextNode =
          some { nodeId := s.nextNode, order := o } :=
        findNode_append_last _ _ _ hfreshids rfl
      rw [cancelSide_some _ _ _ _ h1 h2]
      have hEr : eraseNode (lvl.orders ++ [{ nodeId := s.nextNode, order := o }]) s.nextNode
          = lvl.orders := eraseNode_append_fresh _ _ _ hfreshids rfl
      have hEmp : lvl.orders.isEmpty ≠ true := by
        intro hc
        exact hne (List.isEmpty_iff.mp hc)
      have htlt : lvl.total_quantity < U64 := by
        have htot' : lvl.total_quantity = levelSum lvl % U64 := htot
        rw [htot']
        exact Nat.mod_lt _ U64_pos
      have hcanc : usub (uadd lvl.total_quantity o.quantity) o.quantity =
          lvl.total_quantity := usub_uadd_cancel _ _ htlt hq
      simp only [hEr, hcanc]
      rw [if_neg hEmp, levSet_levInsert]
      have hlvl_eq : PriceLevelData.mk o.price lvl.orders lvl.total_quantity = lvl := by
        have hp' : lvl.price = o.price := hp
        cases lvl
        simp only at hp'
        rw [hp']
      rw [hlvl_eq,
        levInsert_of_mem _ (sideCmp_asym o.is_buy) _ _ _ (hWF.sorted o.is_buy)
          (levFind_mem _ _ _ hfind)]
  have hstate := cancel_order_some (s.add_order o) o.order_id
    { is_buy := o.is_buy, price := o.price, nodeId := s.nextNode } _ hlk hcs
  rw [hstate]
  cases hb : o.is_buy <;>
    exact ⟨rfl, by simp [hb, add_order_def, sideLevels],
      by simp [hb, add_order_def, sideLevels], by simp [add_order_lookup, hb]⟩

/-! ### Claim theorems -/

/-- C1: counterexample to the claim as stated.  The duplicate-id state
`dupBook` (id 1 added at price 100, then again at price 99) is reachable by a
sequence of public calls, yet it violates the claimed invariant: the orphaned
node of id 1 at price 100 has no lookup entry resolving to its level (the
single entry for id 1 points at price 99). -/
theorem c1_counterexample :
    Reach dupBook ∧ ¬ (AggExact dupBook ∧ ResolvesUniquely dupBook) := by
  refine ⟨Reach.add _ _ (Reach.add _ _ Reach.empty (by decide)) (by decide), by decide⟩

/-- C1 (amended): in every state reachable under the documented fresh-id
precondition for `add_order`, every visible price level's `total_quantity`
equals the sum of its orders' quantities reduced modulo 2^64 (`uint64_t`
arithmetic), hence equals the plain sum whenever that sum fits in 64 bits;
and every live order has exactly one lookup entry, whose
`(is_buy, price, list_iter)` resolves to the level and node actually holding
the order. -/
theorem c1_amended (s : OrderBook) (h : ReachFresh s) :
    AggMod s ∧
    (∀ e ∈ s.bids_ ++ s.asks_, levelSum e.2 < U64 →
      e.2.total_quantity = levelSum e.2) ∧
    ResolvesUniquely s := by
  obtain ⟨hWF, hnb⟩ := reachFresh_WF_nodesBack s h
  have hmod : AggMod s := by
    intro e he
    rcases List.mem_append.mp he with h' | h'
    · exact (hWF.levels true e h').2.2.1
    · exact (hWF.levels false e h').2.2.1
  refine ⟨hmod, ?_, ?_⟩
  · intro e he hlt
    rw [hmod e he, Nat.mod_eq_of_lt hlt]
  · intro side e he n hn
    have hb := hnb side e he n hn
    refine ⟨countP_key_eq_one _ _ _ hWF.lookNodup hb, ?_⟩
    intro kv hkv hkvid
    have hkv' : (kv.1, kv.2) ∈ s.order_lookup_ := by simpa using hkv
    have hfound := mem_lkFind _ _ _ hWF.lookNodup hkv'
    rw [hkvid, hb] at hfound
    have heq := Option.some.inj hfound
    exact ⟨by rw [← heq], by rw [← heq], by rw [← heq]⟩

/-- C1 (amended) witness at a concrete five-order book. -/
theorem c1_amended_witness :
    ReachFresh bookA ∧ AggMod bookA ∧ ResolvesUniquely bookA := by
  have hfresh : ReachFresh bookA :=
    ReachFresh.add _ _ (ReachFresh.add _ _ (ReachFresh.add _ _ (ReachFresh.add _ _
      (ReachFresh.add _ _ ReachFresh.empty (by decide) (by decide)) (by decide) (by decide))
      (by decide) (by decide)) (by decide) (by decide)) (by decide) (by decide)
  exact ⟨hfresh, (c1_amended bookA hfresh).1, (c1_amended bookA hfresh).2.2⟩

/-- C2: counterexample to the claim as stated.  `zeroBook` — one buy order at
price 100 amended to quantity 0 at the unchanged price — is reachable, and its
bid index still carries the level at 100 with `total_quantity == 0` and a
non-empty queue (the zero-quantity order keeps resting in it), refuting the
claimed invariant. -/
theorem c2_counterexample :
    Reach zeroBook ∧
    (∃ e ∈ zeroBook.bids_, e.2.total_quantity = 0 ∧ e.2.orders ≠ []) ∧
    ¬ NoEmptyLevels zeroBook := by
  refine ⟨Reach.amend _ _ _ _ (Reach.add _ _ Reach.empty (by decide)) (by decide),
    by decide, by decide⟩

/-- C2 (amended): in every reachable state — zero-quantity runs included —
every visible price level has a non-empty queue; and when additionally every
quantity passed to `add_order`/`amend_order` is positive, every visible level
whose quantity sum has not wrapped past 2^64 also has `total_quantity > 0`.
(The counterexample state exhibits the remaining edge: a zero-quantity amend
leaves a visible level with `total_quantity == 0` and a non-empty queue.) -/
theorem c2_amended (s : OrderBook) (h : Reach s) :
    (∀ e ∈ s.bids_ ++ s.asks_, e.2.orders ≠ []) ∧
    (ReachPos s →
      ∀ e ∈ s.bids_ ++ s.asks_, levelSum e.2 < U64 → 0 < e.2.total_quantity) := by
  have hWF := reach_WF s h
  constructor
  · intro e he
    rcases List.mem_append.mp he with h' | h'
    · exact (hWF.levels true e h').2.1
    · exact (hWF.levels false e h').2.1
  · intro hp e he hlt
    have hpos := reachPos_posQ s hp
    rcases List.mem_append.mp he with h' | h'
    · obtain ⟨_, hne, htot, _, _⟩ := hWF.levels true e h'
      rw [htot, Nat.mod_eq_of_lt hlt]
      obtain ⟨n, hn⟩ := List.exists_mem_of_ne_nil _ hne
      have hq1 : 0 < n.order.quantity := hpos true e h' n hn
      have hq2 := le_sumQ_of_mem _ _ hn
      simp only [levelSum]
      omega
    · obtain ⟨_, hne, htot, _, _⟩ := hWF.levels false e h'
      rw [htot, Nat.mod_eq_of_lt hlt]
      obtain ⟨n, hn⟩ := List.exists_mem_of_ne_nil _ hne
      have hq1 : 0 < n.order.quantity := hpos false e h' n hn
      have hq2 := le_sumQ_of_mem _ _ hn
      simp only [levelSum]
      omega

/-- C2 (amended) witness: the non-empty-queue clause applied at the reachable
zero-quantity state `zeroBook`, and both clauses applied at the concrete
positive-quantity five-order book. -/
theorem c2_amended_witness :
    Reach zeroBook ∧ (∀ e ∈ zeroBook.bids_ ++ zeroBook.asks_, e.2.orders ≠ []) ∧
    Reach bookA ∧ ReachPos bookA ∧
    (∀ e ∈ bookA.bids_ ++ bookA.asks_, e.2.orders ≠ []) ∧
    (∀ e ∈ bookA.bids_ ++ bookA.asks_, levelSum e.2 < U64 → 0 < e.2.total_quantity) := by
  have hz : Reach zeroBook :=
    Reach.amend _ _ _ _ (Reach.add _ _ Reach.empty (by decide)) (by decide)
  have hr : Reach bookA :=
    Reach.add _ _ (Reach.add _ _ (Reach.add _ _ (Reach.add _ _
      (Reach.add _ _ Reach.empty (by decide)) (by decide)) (by decide)) (by decide))
      (by decide)
  have hp : ReachPos bookA :=
    ReachPos.add _ _ (ReachPos.add _ _ (ReachPos.add _ _ (ReachPos.add _ _
      (ReachPos.add _ _ ReachPos.empty (by decide) (by decide)) (by decide) (by decide))
      (by decide) (by decide)) (by decide) (by decide)) (by decide) (by decide)
  exact ⟨hz, (c2_amended zeroBook hz).1, hr, hp, (c2_amended bookA hr).1,
    (c2_amended bookA hr).2 hp⟩

/-- C3: counterexample to the claim as stated.  After re-adding live id 1,
`order_lookup_` holds exactly ONE entry for id 1 — `unordered_map::operator[]`
overwrites the binding — so "two entries for the same order_id coexist" is
false. -/
theorem c3_counterexample :
    Reach dupBook ∧
    dupBook.order_lookup_.countP (fun kv => kv.1 == 1) = 1 ∧
    ¬ 2 ≤ dupBook.order_lookup_.countP (fun kv => kv.1 == 1) := by
  refine ⟨Reach.add _ _ (Reach.add _ _ Reach.empty (by decide)) (by decide),
    by decide, by decide⟩

/-- C3 (amended): re-adding a live `order_id` is not rejected; it replaces the
Order Index entry in place (exactly one entry per id — the key list of
`order_lookup_` is unchanged), pointing to the new node; the earlier order's
queue node remains in its level; and cancelling the id removes only the new
node and its entry, after which the earlier node is still resting in the book
while the id is gone from the index, so a further cancel fails: the earlier
order is un-cancelable by id. -/
theorem c3_amended (s : OrderBook) (o : Order) (loc : OrderLocation) (node : OrderNode)
    (hr : Reach s) (hq : o.quantity < U64)
    (h1 : lkFind s.order_lookup_ o.order_id = some loc)
    (hd : derefLoc s loc = some node) :
    lkFind (s.add_order o).order_lookup_ o.order_id =
      some { is_buy := o.is_buy, price := o.price, nodeId := s.nextNode } ∧
    (s.add_order o).order_lookup_.map Prod.fst = s.order_lookup_.map Prod.fst ∧
    (∃ e ∈ sideLevels (s.add_order o) loc.is_buy, e.1 = loc.price ∧ node ∈ e.2.orders) ∧
    ((s.add_order o).cancel_order o.order_id).1 = true ∧
    (∃ e ∈ sideLevels (((s.add_order o).cancel_order o.order_id).2) loc.is_buy,
      e.1 = loc.price ∧ node ∈ e.2.orders) ∧
    lkFind (((s.add_order o).cancel_order o.order_id).2).order_lookup_ o.order_id = none ∧
    ((((s.add_order o).cancel_order o.order_id).2).cancel_order o.order_id).1 = false := by
  have hWF := reach_WF s hr
  -- unpack the dereferenced node
  have hnodeMem : ∃ lvl, levFind (sideLevels s loc.is_buy) loc.price = some lvl ∧
      node ∈ lvl.orders := by
    unfold derefLoc at hd
    cases hfind : levFind (sideLevels s loc.is_buy) loc.price with
    | none =>
      rw [hfind] at hd
      cases hd
    | some lvl =>
      rw [hfind] at hd
      exact ⟨lvl, rfl, (findNode_mem _ _ _ hd).1⟩
  obtain ⟨lvl, hfind, hnodemem⟩ := hnodeMem
  obtain ⟨htrue, hbids, hasks, hlook⟩ := addCancel_restore s o hWF hq
  have hsides2 : ∀ side : Bool,
      sideLevels (((s.add_order o).cancel_order o.order_id).2) side = sideLevels s side := by
    intro side
    cases side
    · simp [sideLevels, hasks]
    · simp [sideLevels, hbids]
  refine ⟨?_, ?_, ?_, htrue, ?_, ?_, ?_⟩
  · rw [add_order_lookup]
    exact lkFind_lkSet_self _ _ _
  · rw [add_order_lookup]
    exact lkeys_lkSet_found _ _ _ _ h1
  · -- the earlier node is still present right after the duplicate add
    obtain ⟨newlvl, hside, hnewWF, hnewmem, hold, hnew⟩ :=
      addSide_spec (sideLevels s o.is_buy) o s.nextNode hq (hWF.levels o.is_buy)
    rw [add_sideLevels]
    by_cases hs : loc.is_buy = o.is_buy
    · simp only [if_pos hs]
      rw [hs, hside]
      by_cases hkeyp : loc.price = o.price
      · refine ⟨(o.price, newlvl), self_mem_levInsert _ _ _ _, hkeyp.symm, ?_⟩
        refine hold lvl ?_ node hnodemem
        rw [← hkeyp, ← hs]
        exact hfind
      · refine ⟨(loc.price, lvl), ?_, rfl, hnodemem⟩
        refine mem_levInsert_of_ne _ _ _ _ _ ?_ hkeyp
        rw [← hs]
        exact levFind_mem _ _ _ hfind
    · simp only [if_neg hs]
      exact ⟨(loc.price, lvl), levFind_mem _ _ _ hfind, rfl, hnodemem⟩
  · rw [hsides2]
    exact ⟨(loc.price, lvl), levFind_mem _ _ _ hfind, rfl, hnodemem⟩
  · rw [hlook]
    exact lkFind_lkErase_self _ _ (nodup_lkSet _ _ _ hWF.lookNodup)
  · have hnone : lkFind (((s.add_order o).cancel_order o.order_id).2).order_lookup_
        o.order_id = none := by
      rw [hlook]
      exact lkFind_lkErase_self _ _ (nodup_lkSet _ _ _ hWF.lookNodup)
    rw [cancel_order_none _ _ hnone]

/-- C3 (amended) witness: id 1 is live at price 100; re-adding id 1 at price
99 overwrites its lookup entry and orphans the old node. -/
theorem c3_amended_witness :
    Reach (emptyBook.add_order
      { order_id := 1, is_buy := true, price := 100, quantity := 50, timestamp_ns := 0 }) ∧
    ((50 : Nat) < U64) ∧
    lkFind (emptyBook.add_order
      { order_id := 1, is_buy := true, price := 100, quantity := 50,
        timestamp_ns := 0 }).order_lookup_ 1 =
      some { is_buy := true, price := 100, nodeId := 0 } ∧
    lkFind dupBook.order_lookup_ 1 = some { is_buy := true, price := 99, nodeId := 1 } ∧
    dupBook.order_lookup_.map Prod.fst = [1] ∧
    (dupBook.cancel_order 1).1 = true ∧
    ((dupBook.cancel_order 1).2.cancel_order 1).1 = false := by
  have hr : Reach (emptyBook.add_order
      { order_id := 1, is_buy := true, price := 100, quantity := 50, timestamp_ns := 0 }) :=
    Reach.add _ _ Reach.empty (by decide)
  have h := c3_amended (emptyBook.add_order
      { order_id := 1, is_buy := true, price := 100, quantity := 50, timestamp_ns := 0 })
    { order_id := 1, is_buy := true, price := 99, quantity := 30, timestamp_ns := 1 }
    { is_buy := true, price := 100, nodeId := 0 }
    { nodeId := 0,
      order := { order_id := 1, is_buy := true, price := 100, quantity := 50,
                 timestamp_ns := 0 } }
    hr (by decide) (by decide) (by decide)
  exact ⟨hr, by decide, by decide, h.1, by decide, h.2.2.2.1, h.2.2.2.2.2.2⟩

/-- C4: for reachable states, `cancel_order` and `amend_order` return false
exactly when the id has no Order Index entry, and whenever they return false
the book afterwards is exactly the book before. -/
theorem c4_fail_iff_unknown (s : OrderBook) (hr : Reach s) (oid : Nat) (np : Int)
    (nq : Nat) :
    (((s.cancel_order oid).1 = false) ↔ lkFind s.order_lookup_ oid = none) ∧
    ((s.cancel_order oid).1 = false → (s.cancel_order oid).2 = s) ∧
    (((s.amend_order oid np nq).1 = false) ↔ lkFind s.order_lookup_ oid = none) ∧
    ((s.amend_order oid np nq).1 = false → (s.amend_order oid np nq).2 = s) := by
  have hWF := reach_WF s hr
  cases h1 : lkFind s.order_lookup_ oid with
  | none =>
    rw [cancel_order_none s oid h1, amend_order_none s oid np nq h1]
    simp
  | some loc =>
    have hkeysNodup : ∀ side : Bool, ((sideLevels s side).map Prod.fst).Nodup := fun side =>
      keysNodup_of_sorted (sideCmp side) (sideCmp_ne side) _ (hWF.sorted side)
    obtain ⟨e₀, he₀, hkey₀, n₀, hn₀, hnid₀, hoid₀⟩ :=
      hWF.lookRes (oid, loc) (lkFind_mem _ _ _ h1)
    have he₀' : (e₀.1, e₀.2) ∈ sideLevels s loc.is_buy := by simpa using he₀
    have hfind : levFind (sideLevels s loc.is_buy) loc.price = some e₀.2 :=
      mem_levFind _ _ _ (hkeysNodup loc.is_buy) (hkey₀ ▸ he₀')
    obtain ⟨hp₀, hne₀, htot₀, hnodup₀, hflds₀⟩ := hWF.levels loc.is_buy e₀ he₀
    have hfn : findNode e₀.2.orders loc.nodeId = some n₀ :=
      findNode_eq_of_nodup _ _ _ hnodup₀ hn₀ hnid₀
    have hcs := cancelSide_some (sideLevels s loc.is_buy) loc e₀.2 n₀ hfind hfn
    have hcanc := cancel_order_some s oid loc _ h1 hcs
    have hd : derefLoc s loc = some n₀ := derefLoc_some s loc e₀.2 n₀ hfind hfn
    refine ⟨?_, ?_, ?_, ?_⟩
    · rw [hcanc]
      simp
    · rw [hcanc]
      simp
    · by_cases hnep : n₀.order.price ≠ np
      · rw [amend_order_price_change s oid np nq loc n₀ h1 hd hnep]
        simp
      · have heqp := not_not.mp hnep
        have hAm := amendSide_eq (sideLevels s loc.is_buy) loc n₀ nq e₀.2 hfind
        rw [amend_order_qty s oid np nq loc n₀ _ h1 hd heqp hAm]
        simp
    · by_cases hnep : n₀.order.price ≠ np
      · rw [amend_order_price_change s oid np nq loc n₀ h1 hd hnep]
        simp
      · have heqp := not_not.mp hnep
        have hAm := amendSide_eq (sideLevels s loc.is_buy) loc n₀ nq e₀.2 hfind
        rw [amend_order_qty s oid np nq loc n₀ _ h1 hd heqp hAm]
        simp

/-- C4 witness at a concrete book: id 999 is unknown (both calls fail and
change nothing), applied through the general theorem. -/
theorem c4_witness :
    Reach bookA ∧
    ((((bookA.cancel_order 999).1 = false) ↔ lkFind bookA.order_lookup_ 999 = none) ∧
     ((bookA.cancel_order 999).1 = false → (bookA.cancel_order 999).2 = bookA) ∧
     (((bookA.amend_order 999 100 10).1 = false) ↔
        lkFind bookA.order_lookup_ 999 = none) ∧
     ((bookA.amend_order 999 100 10).1 = false →
        (bookA.amend_order 999 100 10).2 = bookA)) := by
  have hr : Reach bookA :=
    Reach.add _ _ (Reach.add _ _ (Reach.add _ _ (Reach.add _ _
      (Reach.add _ _ Reach.empty (by decide)) (by decide)) (by decide)) (by decide))
      (by decide)
  exact ⟨hr, c4_fail_iff_unknown bookA hr 999 100 10⟩

/-- C5: a quantity-only amend (new price equal to the order's current price)
returns true, leaves the lookup, the allocator, the other side and every other
price level untouched, updates the owning level in place — the order's
quantity becomes `new_quantity`, the queue (node-id sequence, hence FIFO
position) is unchanged, every other order of the level survives — and the
level's `total_quantity` becomes `total - old + new` in `uint64_t` arithmetic,
which is exactly a change by `(new_quantity - old_quantity)` when no wrap
occurs. -/
theorem c5_quantity_amend (s : OrderBook) (oid : Nat) (p : Int) (nq : Nat)
    (loc : OrderLocation) (lvl : PriceLevelData) (node : OrderNode)
    (h1 : lkFind s.order_lookup_ oid = some loc)
    (hfind : levFind (sideLevels s loc.is_buy) loc.price = some lvl)
    (hfn : findNode lvl.orders loc.nodeId = some node)
    (hlp : loc.price = p) (hp : node.order.price = p) :
    (s.amend_order oid p nq).1 = true ∧
    ((s.amend_order oid p nq).2).order_lookup_ = s.order_lookup_ ∧
    ((s.amend_order oid p nq).2).nextNode = s.nextNode ∧
    (∀ b : Bool, b ≠ loc.is_buy →
      sideLevels ((s.amend_order oid p nq).2) b = sideLevels s b) ∧
    sideLevels ((s.amend_order oid p nq).2) loc.is_buy =
      levSet (sideLevels s loc.is_buy) p
        { lvl with
          total_quantity := uadd (usub lvl.total_quantity node.order.quantity) nq,
          orders := setNodeQty lvl.orders loc.nodeId nq } ∧
    (node.order.quantity ≤ lvl.total_quantity → lvl.total_quantity < U64 →
      lvl.total_quantity - node.order.quantity + nq < U64 →
      uadd (usub lvl.total_quantity node.order.quantity) nq =
        lvl.total_quantity - node.order.quantity + nq) ∧
    (setNodeQty lvl.orders loc.nodeId nq).map OrderNode.nodeId =
      lvl.orders.map OrderNode.nodeId ∧
    findNode (setNodeQty lvl.orders loc.nodeId nq) loc.nodeId =
      some { node with order := { node.order with quantity := nq } } ∧
    ∀ n ∈ lvl.orders, n.nodeId ≠ loc.nodeId → n ∈ setNodeQty lvl.orders loc.nodeId nq := by
  have hd : derefLoc s loc = some node := derefLoc_some s loc lvl node hfind hfn
  have hAm := amendSide_eq (sideLevels s loc.is_buy) loc node nq lvl hfind
  have hst := amend_order_qty s oid p nq loc node _ h1 hd hp hAm
  refine ⟨?_, ?_, ?_, ?_, ?_, ?_, ?_, ?_, ?_⟩
  · rw [hst]
  · rw [hst]
  · rw [hst]
  · intro b hb
    rw [amend_sideLevels_qty s oid p nq loc node _ h1 hd hp hAm]
    simp [hb]
  · rw [amend_sideLevels_qty s oid p nq loc node _ h1 hd hp hAm, hlp]
    simp
  · intro hOldLe hTlt hBound
    conv_lhs => rw [← Nat.mod_eq_of_lt hTlt]
    rw [usub_mod_left _ _ hOldLe (lt_of_le_of_lt hOldLe hTlt), uadd_mod_left,
      Nat.mod_eq_of_lt hBound]
  · exact map_nodeId_setNodeQty _ _ _
  · exact findNode_setNodeQty_self _ _ _ _ hfn
  · intro n hn hne
    exact mem_setNodeQty_of_ne _ _ _ _ hn hne

/-- C5 witness: amend order 1 of the concrete book from quantity 50 to 75 at
its unchanged price 100, applied through the general theorem. -/
theorem c5_witness :
    lkFind bookA.order_lookup_ 1 =
      some { is_buy := true, price := 100, nodeId := 0 } ∧
    (bookA.amend_order 1 100 75).1 = true ∧
    (bookA.amend_order 1 100 75).2.order_lookup_ = bookA.order_lookup_ ∧
    (bookA.amend_order 1 100 75).2.nextNode = bookA.nextNode := by
  have hlv : levFind (sideLevels bookA true) (100 : Int) =
      some { price := 100,
             orders := [{ nodeId := 0,
                          order := { order_id := 1, is_buy := true, price := 100,
                                     quantity := 50, timestamp_ns := 10 } },
                        { nodeId := 1,
                          order := { order_id := 2, is_buy := true, price := 100,
                                     quantity := 30, timestamp_ns := 11 } }],
             total_quantity := 80 } := by decide
  have h := c5_quantity_amend bookA 1 100 75
    { is_buy := true, price := 100, nodeId := 0 }
    { price := 100,
      orders := [{ nodeId := 0,
                   order := { order_id := 1, is_buy := true, price := 100,
                              quantity := 50, timestamp_ns := 10 } },
                 { nodeId := 1,
                   order := { order_id := 2, is_buy := true, price := 100,
                              quantity := 30, timestamp_ns := 11 } }],
      total_quantity := 80 }
    { nodeId := 0,
      order := { order_id := 1, is_buy := true, price := 100, quantity := 50,
                 timestamp_ns := 10 } }
    (by decide) hlv (by decide) (by decide) (by decide)
  exact ⟨by decide, h.1, h.2.1, h.2.2.1⟩

theorem add_order_last (t : OrderBook) (o : Order) :
    ∃ lvl, levFind (sideLevels (t.add_order o) o.is_buy) o.price = some lvl ∧
      lvl.orders.getLast? = some { nodeId := t.nextNode, order := o } := by
  rw [add_sideLevels]
  simp only [if_pos rfl]
  cases hfind : levFind (sideLevels t o.is_buy) o.price with
  | none =>
    rw [addSide_eq_fresh _ _ _ _ hfind]
    exact ⟨_, levFind_levInsert_self _ _ _ _, by simp⟩
  | some lvl =>
    rw [addSide_eq_found _ _ _ _ lvl hfind]
    exact ⟨_, levFind_levInsert_self _ _ _ _, by simp [List.getLast?_concat]⟩

/-- C6: a price-changing amend returns true and produces exactly the state of
`cancel_order` followed by `add_order` of an order with the same id, side and
timestamp and the new price and quantity; the re-inserted node sits at the
back of the new price level's queue (priority lost). -/
theorem c6_price_change_is_cancel_add (s : OrderBook) (oid : Nat) (np : Int) (nq : Nat)
    (loc : OrderLocation) (node : OrderNode)
    (h1 : lkFind s.order_lookup_ oid = some loc)
    (hd : derefLoc s loc = some node)
    (hnep : node.order.price ≠ np) :
    s.amend_order oid np nq =
      (true, ((s.cancel_order oid).2).add_order
        { node.order with price := np, quantity := nq }) ∧
    ∃ lvl, levFind (sideLevels ((s.amend_order oid np nq).2) node.order.is_buy) np =
        some lvl ∧
      lvl.orders.getLast? = some
        { nodeId := ((s.cancel_order oid).2).nextNode,
          order := { node.order with price := np, quantity := nq } } := by
  have heq := amend_order_price_change s oid np nq loc node h1 hd hnep
  refine ⟨heq, ?_⟩
  rw [heq]
  exact add_order_last ((s.cancel_order oid).2) { node.order with price := np, quantity := nq }

/-- C6 witness: amend order 1 of the concrete book from price 100 to price 99
(where order 3 already rests), applied through the general theorem; the moved
order ends up last in the queue at 99. -/
theorem c6_witness :
    lkFind bookA.order_lookup_ 1 =
      some { is_buy := true, price := 100, nodeId := 0 } ∧
    bookA.amend_order 1 99 75 =
      (true, ((bookA.cancel_order 1).2).add_order
        { order_id := 1, is_buy := true, price := 99, quantity := 75,
          timestamp_ns := 10 }) := by
  have h := c6_price_change_is_cancel_add bookA 1 99 75
    { is_buy := true, price := 100, nodeId := 0 }
    { nodeId := 0,
      order := { order_id := 1, is_buy := true, price := 100, quantity := 50,
                 timestamp_ns := 10 } }
    (by decide) (by decide) (by decide)
  exact ⟨by decide, h.1⟩

/-- C7: `get_snapshot` — a pure function of the book in this embedding, as the
C++ method is `const` and cannot mutate state — returns for each side exactly
the summaries of the first `min depth (number of levels)` entries of the side
index in its iteration order, each carrying that level's price and
`total_quantity`; with fewer than `depth` levels it returns them all, with no
error and no padding. -/
theorem c7_snapshot_spec (b : OrderBook) (depth : Nat) :
    (b.get_snapshot depth).1 = (b.bids_.take depth).map
      (fun e => { price := e.1, total_quantity := e.2.total_quantity }) ∧
    (b.get_snapshot depth).2 = (b.asks_.take depth).map
      (fun e => { price := e.1, total_quantity := e.2.total_quantity }) ∧
    (b.get_snapshot depth).1.length = min depth b.bids_.length ∧
    (b.get_snapshot depth).2.length = min depth b.asks_.length := by
  rw [get_snapshot_eq]
  refine ⟨rfl, rfl, ?_, ?_⟩ <;> simp

/-- C8: for every reachable book and every depth, the snapshot's bid summaries
are strictly descending by price and its ask summaries strictly ascending. -/
theorem c8_snapshot_sorted (s : OrderBook) (hr : Reach s) (depth : Nat) :
    ((s.get_snapshot depth).1.map PriceLevel.price).Pairwise (fun a b => a > b) ∧
    ((s.get_snapshot depth).2.map PriceLevel.price).Pairwise (fun a b => a < b) := by
  have hWF := reach_WF s hr
  rw [get_snapshot_eq]
  constructor
  · simp only [List.map_map]
    refine (List.pairwise_map).mpr ?_
    refine List.Pairwise.sublist (List.take_sublist _ _) ?_
    refine (hWF.sorted true).imp ?_
    intro a b hab
    simp [sideCmp, bidLt] at hab
    simpa using hab
  · simp only [List.map_map]
    refine (List.pairwise_map).mpr ?_
    refine List.Pairwise.sublist (List.take_sublist _ _) ?_
    refine (hWF.sorted false).imp ?_
    intro a b hab
    simp [sideCmp, askLt] at hab
    simpa using hab

/-- C8 witness at a concrete five-order book and depth 5, applied through the
general theorem. -/
theorem c8_witness :
    Reach bookA ∧
    ((bookA.get_snapshot 5).1.map PriceLevel.price).Pairwise (fun a b => a > b) ∧
    ((bookA.get_snapshot 5).2.map PriceLevel.price).Pairwise (fun a b => a < b) := by
  have hr : Reach bookA :=
    Reach.add _ _ (Reach.add _ _ (Reach.add _ _ (Reach.add _ _
      (Reach.add _ _ Reach.empty (by decide)) (by decide)) (by decide)) (by decide))
      (by decide)
  exact ⟨hr, c8_snapshot_sorted bookA hr 5⟩

/-- C9: for a reachable book and an order whose id is not live, adding it and
then cancelling that id succeeds and restores the snapshot output at every
depth (the side indices themselves are restored exactly). -/
theorem c9_add_cancel_roundtrip (s : OrderBook) (o : Order) (hr : Reach s)
    (hq : o.quantity < U64) (_hfresh : lkFind s.order_lookup_ o.order_id = none) :
    ((s.add_order o).cancel_order o.order_id).1 = true ∧
    ∀ d : Nat, (((s.add_order o).cancel_order o.order_id).2).get_snapshot d =
      s.get_snapshot d := by
  have hWF := reach_WF s hr
  obtain ⟨htrue, hbids, hasks, hlook⟩ := addCancel_restore s o hWF hq
  refine ⟨htrue, fun d => ?_⟩
  simp [OrderBook.get_snapshot, hbids, hasks]

/-- C9 witness: a fresh sell order (id 9) added to and cancelled from the
concrete book, applied through the general theorem; snapshots at depth 5
agree. -/
theorem c9_witness :
    Reach bookA ∧ lkFind bookA.order_lookup_ 9 = none ∧
    ((bookA.add_order
        { order_id := 9, is_buy := false, price := 103, quantity := 25,
          timestamp_ns := 99 }).cancel_order 9).1 = true ∧
    (((bookA.add_order
        { order_id := 9, is_buy := false, price := 103, quantity := 25,
          timestamp_ns := 99 }).cancel_order 9).2).get_snapshot 5 =
      bookA.get_snapshot 5 := by
  have hr : Reach bookA :=
    Reach.add _ _ (Reach.add _ _ (Reach.add _ _ (Reach.add _ _
      (Reach.add _ _ Reach.empty (by decide)) (by decide)) (by decide)) (by decide))
      (by decide)
  have h := c9_add_cancel_roundtrip bookA
    { order_id := 9, is_buy := false, price := 103, quantity := 25, timestamp_ns := 99 }
    hr (by decide) (by decide)
  exact ⟨hr, by decide, h.1, h.2 5⟩

/-- C10: a price-changing amend preserves every field of the order other than
price and quantity — the node re-inserted at the back of the new level carries
the original `order_id`, the original `is_buy` side and the original
`timestamp_ns`, with only `price` and `quantity` replaced. -/
theorem c10_price_amend_preserves_fields (s : OrderBook) (oid : Nat) (np : Int)
    (nq : Nat) (loc : OrderLocation) (node : OrderNode)
    (h1 : lkFind s.order_lookup_ oid = some loc)
    (hd : derefLoc s loc = some node)
    (hnep : node.order.price ≠ np) :
    ∃ lvl, levFind (sideLevels ((s.amend_order oid np nq).2) node.order.is_buy) np =
        some lvl ∧
      lvl.orders.getLast? = some
        { nodeId := ((s.cancel_order oid).2).nextNode,
          order := { order_id := node.order.order_id, is_buy := node.order.is_buy,
                     price := np, quantity := nq,
                     timestamp_ns := node.order.timestamp_ns } } := by
  have heq := amend_order_price_change s oid np nq loc node h1 hd hnep
  rw [heq]
  exact add_order_last ((s.cancel_order oid).2) { node.order with price := np, quantity := nq }

/-- C10 witness: moving order 1 from price 100 to 99 keeps its side (buy) and
timestamp (10), applied through the general theorem. -/
theorem c10_witness :
    lkFind bookA.order_lookup_ 1 =
      some { is_buy := true, price := 100, nodeId := 0 } ∧
    ∃ lvl, levFind (sideLevels ((bookA.amend_order 1 99 75).2) true) 99 = some lvl ∧
      lvl.orders.getLast? = some
        { nodeId := ((bookA.cancel_order 1).2).nextNode,
          order := { order_id := 1, is_buy := true, price := 99, quantity := 75,
                     timestamp_ns := 10 } } := by
  have h := c10_price_amend_preserves_fields bookA 1 99 75
    { is_buy := true, price := 100, nodeId := 0 }
    { nodeId := 0,
      order := { order_id := 1, is_buy := true, price := 100, quantity := 50,
                 timestamp_ns := 10 } }
    (by decide) (by decide) (by decide)
  exact ⟨by decide, h⟩

end LOB
